import Mathlib

/-!
Verification of the Marzullo interval-selection library (`src/lib.rs`).

The Rust source is shallowly embedded below:
* `BoundType`, `SourceBound`, `Interval`, `MarzulloError` mirror the Rust types;
  `i64` values are modelled as `Int` (with explicit wrap-around where the code
  can overflow), `u8` counters as `Nat` reduced mod 256 at the points where the
  code performs `as u8` casts, and `usize` counters as `Nat`.
* `cmpSB` is `Ord::cmp` for `SourceBound`; `sbEq` is its `PartialEq::eq`.
* `try_from_source_bounds` is `Interval::try_from_source_bounds`; the sweep
  loop is `sweepGo`/`sweepStep`.  Error payloads that Rust builds with
  `format!` are modelled by carrying the formatted data directly.
* Rust's `Vec::sort` (a stable sort by `Ord::cmp`) is modelled by
  `List.insertionSort` over the reflexive closure `leSB` of `cmpSB`; since
  `cmpSB` only identifies structurally identical bounds (`leSB` is
  antisymmetric), every correct sort produces exactly the same list, so the
  choice of sorting algorithm is immaterial (`sortBounds_canonical` below).
-/

namespace Marzullo

/-- Rust `enum BoundType`. -/
inductive BoundType where
  | Lower
  | Upper
deriving DecidableEq

/-- Rust `struct SourceBound`: `value: i64`, `source: u8`, `bound_type: BoundType`. -/
structure SourceBound where
  value : Int
  source : Nat
  bound_type : BoundType
deriving DecidableEq

/-- Rust `struct Interval`.  `lower_bound`/`upper_bound` are `i64`;
`sources_true`/`sources_false` are `u8` (the embedding keeps them as `Nat`
already reduced mod 256 exactly where the code casts with `as u8`). -/
structure Interval where
  lower_bound : Int
  upper_bound : Int
  sources_true : Nat
  sources_false : Nat
deriving DecidableEq

/-- `impl PartialEq for SourceBound`: equality ignores `source`. -/
def sbEq (a b : SourceBound) : Bool :=
  a.value == b.value && a.bound_type == b.bound_type

/-- `impl Ord for SourceBound`.  The final `else` branch corresponds to the
`unreachable!` in the Rust code: it can only be entered with equal values and
equal bound types, which the first branch (`self == other`) already caught,
so the placeholder result is never produced (see `cmpSB_eq_iff`). -/
def cmpSB (a b : SourceBound) : Ordering :=
  if sbEq a b then
    if a.source < b.source then .lt
    else if b.source < a.source then .gt
    else .eq
  else if a.value < b.value then .lt
  else if b.value < a.value then .gt
  else if a.bound_type = BoundType.Lower ∧ b.bound_type = BoundType.Upper then .lt
  else if a.bound_type = BoundType.Upper ∧ b.bound_type = BoundType.Lower then .gt
  else .eq

/-- `a <= b` in the order produced by `cmpSB` (what a sort by `Ord::cmp`
guarantees for consecutive elements). -/
def leSB (a b : SourceBound) : Prop := cmpSB a b ≠ .gt

instance : DecidableRel leSB := fun a b => by
  unfold leSB; infer_instance

/-- The data of which invariant check inside `try_from_source_bounds` failed;
Rust carries an equivalent human-readable `String` built with `format!`. -/
inductive InvariantViolation where
  | lastBoundNotUpper
  | bestExceedsSources (best sources : Nat)
  | sourcesSumMismatch
deriving DecidableEq

/-- Rust `enum MarzulloError`.  `InvalidSourceBoundsOrder` carries the two
offending bounds (Rust formats them into its message string). -/
inductive MarzulloError where
  | InvalidSourceBounds (msg : String)
  | InvalidSourceBoundsOrder (prev cur : SourceBound)
  | IntervalInvariant (v : InvariantViolation)
deriving DecidableEq

deriving instance DecidableEq for Except

/-- Two's-complement wrap-around into the `i64` range, used where Rust `i64`
arithmetic can overflow (release-mode semantics). -/
def wrap64 (x : Int) : Int := (x + 2 ^ 63) % 2 ^ 64 - 2 ^ 63

/-- `a - b` on `i64` (wrapping). -/
def sub64 (a b : Int) : Int := wrap64 (a - b)

/-- One update of the running overlap counter (`count += 1` / `count -= 1`).
`count` is a `usize`; the subtraction is modelled with truncated `Nat`
subtraction, which agrees with the Rust behaviour whenever the counter is
positive at every decrement — established for all well-formed inputs by the
underflow-freedom theorem below. -/
def bump (c : Nat) : BoundType → Nat
  | .Lower => c + 1
  | .Upper => c - 1

/-- The mutable state of the sweep loop: `best`, `count`, `interval`. -/
structure SweepState where
  best : Nat
  count : Nat
  interval : Option Interval
deriving DecidableEq

/-- One iteration of the `for (idx, bound)` loop body (after the sort-order
check): update `count`, then possibly record a new best interval or replace a
tied one.  `next` is `bounds[idx + 1]` when `idx < bounds.len() - 1`. -/
def sweepStep (cur : SourceBound) (next : Option SourceBound) (s : SweepState) : SweepState :=
  let c := bump s.count cur.bound_type
  match next with
  | none => { s with count := c }
  | some nxt =>
    if s.best < c then
      { best := c, count := c, interval := some ⟨cur.value, nxt.value, 0, 0⟩ }
    else if c = s.best ∧ nxt.bound_type = BoundType.Upper then
      match s.interval with
      | some ivl =>
        if sub64 nxt.value cur.value < sub64 ivl.upper_bound ivl.lower_bound then
          { s with count := c, interval := some ⟨cur.value, nxt.value, 0, 0⟩ }
        else { s with count := c }
      | none => { s with count := c }
    else { s with count := c }

/-- The sweep loop from its second iteration on: `prev` is `iter_prev_bound`
(already processed), and each new bound is first checked against `prev` for
sort order (`InvalidSourceBoundsOrder`).  Returns the last visited bound and
the final state. -/
def sweepGo (prev : SourceBound) (s : SweepState) :
    List SourceBound → Except MarzulloError (SourceBound × SweepState)
  | [] => .ok (prev, s)
  | b :: rest =>
    if cmpSB prev b = .gt then
      .error (.InvalidSourceBoundsOrder prev b)
    else
      sweepGo b (sweepStep b rest.head? s) rest

/-- `bounds.sort()`: Rust's stable sort by `Ord::cmp`.  Because `leSB` is
antisymmetric, the sorted list is unique, so insertion sort is an exact model
(see `sortBounds_canonical`). -/
def sortBounds (l : List SourceBound) : List SourceBound :=
  l.insertionSort leSB

/-- `Interval::try_from_source_bounds`. -/
def try_from_source_bounds (source_bounds : List SourceBound) :
    Except MarzulloError Interval :=
  let sources := source_bounds.length / 2
  if sources = 0 then
    .ok ⟨0, 0, 0, 0⟩
  else
    match sortBounds source_bounds with
    | [] => .error (.InvalidSourceBounds "first bound should be a lower bound")
    | b0 :: rest =>
      if b0.bound_type ≠ BoundType.Lower then
        .error (.InvalidSourceBounds "first bound should be a lower bound")
      else
        match sweepGo b0 (sweepStep b0 rest.head? ⟨0, 0, none⟩) rest with
        | .error e => .error e
        | .ok (lastb, s) =>
          if lastb.bound_type ≠ BoundType.Upper then
            .error (.IntervalInvariant .lastBoundNotUpper)
          else if sources < s.best then
            .error (.IntervalInvariant (.bestExceedsSources s.best sources))
          else
            match s.interval with
            | none => .error (.IntervalInvariant .sourcesSumMismatch)
            | some ivl =>
              let ivl2 : Interval :=
                { ivl with
                  sources_true := s.best % 256
                  sources_false := (sources - s.best) % 256 }
              if (ivl2.sources_true + ivl2.sources_false) % 256 = sources % 256 then
                .ok ivl2
              else
                .error (.IntervalInvariant .sourcesSumMismatch)

/-! ### Well-formed inputs

A well-formed input consists of exactly one `Lower` and one `Upper` bound per
distinct source, with the per-source invariant `lower.value <= upper.value`
assumed by the library, the `u8` range constraint on source identifiers and
the `i64` range constraint on values. -/

/-- One clock source: its identifier and its claimed interval `[lo, hi]`. -/
structure Source where
  id : Nat
  lo : Int
  hi : Int
deriving DecidableEq

def mkLower (s : Source) : SourceBound := ⟨s.lo, s.id, .Lower⟩

def mkUpper (s : Source) : SourceBound := ⟨s.hi, s.id, .Upper⟩

/-- The two bounds contributed by each source. -/
def canonicalBounds (srcs : List Source) : List SourceBound :=
  srcs.map mkLower ++ srcs.map mkUpper

def i64Min : Int := -(2 ^ 63)

def i64Max : Int := 2 ^ 63 - 1

/-- `l` is a well-formed input describing the sources `srcs`: distinct `u8`
source ids, `lo <= hi` per source with `i64` values, and `l` contains exactly
one `Lower` and one `Upper` bound per source, in any order. -/
def WellFormedInput (srcs : List Source) (l : List SourceBound) : Prop :=
  (srcs.map Source.id).Nodup ∧
    (∀ s ∈ srcs, s.lo ≤ s.hi ∧ s.id < 256 ∧ i64Min ≤ s.lo ∧ s.hi ≤ i64Max) ∧
    l.Perm (canonicalBounds srcs)

instance (srcs : List Source) (l : List SourceBound) :
    Decidable (WellFormedInput srcs l) := by
  unfold WellFormedInput
  exact instDecidableAnd

/-- Number of source intervals containing the point `p`. -/
def overlapAt (srcs : List Source) (p : Int) : Nat :=
  srcs.countP fun s => decide (s.lo ≤ p ∧ p ≤ s.hi)

/-- Number of source intervals containing the whole interval `[lo, hi]`. -/
def agreeCount (srcs : List Source) (lo hi : Int) : Nat :=
  srcs.countP fun s => decide (s.lo ≤ lo ∧ hi ≤ s.hi)

def isLowerB (b : SourceBound) : Bool := decide (b.bound_type = BoundType.Lower)

def countLower (l : List SourceBound) : Nat := l.countP isLowerB

def countUpper (l : List SourceBound) : Nat := l.countP fun b => !isLowerB b

/-- The overlap counter after sequentially processing `l`, starting from `c`
(truncated `Nat` subtraction at `Upper` bounds, as in the sweep loop). -/
def netFrom (c : Nat) (l : List SourceBound) : Nat :=
  l.foldl (fun acc b => bump acc b.bound_type) c

/-- `true` iff processing `l` from counter value `c` never decrements a zero
counter — i.e. the `usize` `count -= 1` of the Rust sweep never underflows. -/
def underflowFree (c : Nat) : List SourceBound → Bool
  | [] => true
  | b :: rest =>
    match b.bound_type with
    | .Lower => underflowFree (c + 1) rest
    | .Upper => decide (0 < c) && underflowFree (c - 1) rest

/-! ### Derived specification artifacts (defined from the embedded code) -/

/-- The sweep loop without the (never-failing) order check: the pure fold the
loop performs on its state. -/
def sweepList (s : SweepState) : List SourceBound → SweepState
  | [] => s
  | b :: rest => sweepList (sweepStep b rest.head? s) rest

/-- The candidate windows the sweep examines: for every position of the
sorted sequence except the last, the counter value after that bound together
with the bound and its successor. -/
def windowsF (c : Nat) : List SourceBound → List (Nat × SourceBound × SourceBound)
  | [] => []
  | [_] => []
  | b :: b2 :: rest =>
    (bump c b.bound_type, b, b2) :: windowsF (bump c b.bound_type) (b2 :: rest)

/-- The effect of one loop iteration on the `(best, interval)` pair, as a
function of the window it examines (counter value, bound, next bound). -/
def selStep (st : Nat × Option Interval) (w : Nat × SourceBound × SourceBound) :
    Nat × Option Interval :=
  if st.1 < w.1 then
    (w.1, some ⟨w.2.1.value, w.2.2.value, 0, 0⟩)
  else if w.1 = st.1 ∧ w.2.2.bound_type = BoundType.Upper then
    (st.1,
      match st.2 with
      | some ivl =>
        if sub64 w.2.2.value w.2.1.value < sub64 ivl.upper_bound ivl.lower_bound then
          some ⟨w.2.1.value, w.2.2.value, 0, 0⟩
        else some ivl
      | none => none)
  else st

def selFold (st : Nat × Option Interval) (ws : List (Nat × SourceBound × SourceBound)) :
    Nat × Option Interval :=
  ws.foldl selStep st

/-- Width of a candidate window, in the `i64` arithmetic the code uses. -/
def pWidth (w : Int × Int) : Int := sub64 w.2 w.1

/-- First strict minimum of `pWidth` (the replacement policy of the tie
branch). -/
def minFirst (w : Int × Int) (ws : List (Int × Int)) : Int × Int :=
  ws.foldl (fun acc x => if pWidth x < pWidth acc then x else acc) w

/-- The maximal counter value over all candidate windows: the `best` value
the sweep ends with. -/
def winMax (l : List SourceBound) : Nat :=
  ((windowsF 0 (sortBounds l)).map fun w => w.1).foldr max 0

/-- The windows whose counter value is maximal, left to right: the candidate
intervals among which the sweep selects its result. -/
def levelWindows (l : List SourceBound) : List (Int × Int) :=
  ((windowsF 0 (sortBounds l)).filter fun w => decide (w.1 = winMax l)).map
    fun w => (w.2.1.value, w.2.2.value)

/-- Bounds strictly below the point `p` in the sweep order: value below `p`,
or equal to `p` for a `Lower` bound (which sorts before the `Upper` bounds
at `p`). -/
def predLow (p : Int) (b : SourceBound) : Bool :=
  decide (b.value < p ∨ b.value = p ∧ b.bound_type = BoundType.Lower)

/-- The `sources_true` field of the result, when the call succeeds. -/
def sourcesTrueOf (l : List SourceBound) : Option Nat :=
  match try_from_source_bounds l with
  | .ok ivl => some ivl.sources_true
  | .error _ => none

/-- The sum `sources_true + sources_false` of the result, when the call
succeeds. -/
def sourcesSumOf (l : List SourceBound) : Option Nat :=
  match try_from_source_bounds l with
  | .ok ivl => some (ivl.sources_true + ivl.sources_false)
  | .error _ => none

/-! ### Concrete inputs used in counterexamples and witnesses -/

/-- 256 sources (the whole `u8` id range), all claiming the interval
`[0, 0]`. -/
def srcs256 : List Source := (List.range 256).map fun i => ⟨i, 0, 0⟩

/-- The corresponding well-formed input of 512 bounds. -/
def l256 : List SourceBound := canonicalBounds srcs256

/-- A single source claiming `[1, 3]`. -/
def srcsSingle : List Source := [⟨0, 1, 3⟩]

def lSingle : List SourceBound := [⟨1, 0, .Lower⟩, ⟨3, 0, .Upper⟩]

/-- The three-source input `[7,9], [7,12], [10,11]` of claim C8, in the
order the repository test builds it. -/
def lC8 : List SourceBound :=
  [⟨7, 0, .Lower⟩, ⟨9, 0, .Upper⟩, ⟨7, 1, .Lower⟩, ⟨12, 1, .Upper⟩,
   ⟨10, 2, .Lower⟩, ⟨11, 2, .Upper⟩]

def srcsC8 : List Source := [⟨0, 7, 9⟩, ⟨1, 7, 12⟩, ⟨2, 10, 11⟩]

/-! ### The comparator is a lexicographic total order -/

/-- Numeric rank of a bound kind: `Lower` sorts before `Upper` at equal value. -/
def kindRank : BoundType → Nat
  | .Lower => 0
  | .Upper => 1

theorem kindRank_inj {x y : BoundType} (h : kindRank x = kindRank y) : x = y := by
  cases x <;> cases y <;> simp_all [kindRank]

theorem sbEq_iff (a b : SourceBound) :
    sbEq a b = true ↔ a.value = b.value ∧ a.bound_type = b.bound_type := by
  simp [sbEq]

theorem cmpSB_lt_iff (a b : SourceBound) :
    cmpSB a b = .lt ↔
      a.value < b.value ∨
        a.value = b.value ∧
          (kindRank a.bound_type < kindRank b.bound_type ∨
            kindRank a.bound_type = kindRank b.bound_type ∧ a.source < b.source) := by
  obtain ⟨va, sa, ka⟩ := a
  obtain ⟨vb, sb, kb⟩ := b
  simp only [cmpSB, sbEq]
  cases ka <;> cases kb <;>
    simp only [kindRank, beq_iff_eq, Bool.and_eq_true, decide_eq_true_eq] <;>
    split_ifs <;> simp_all <;> omega

theorem cmpSB_eq_iff (a b : SourceBound) :
    cmpSB a b = .eq ↔
      a.value = b.value ∧ a.bound_type = b.bound_type ∧ a.source = b.source := by
  obtain ⟨va, sa, ka⟩ := a
  obtain ⟨vb, sb, kb⟩ := b
  simp only [cmpSB, sbEq]
  cases ka <;> cases kb <;>
    simp only [beq_iff_eq, Bool.and_eq_true, decide_eq_true_eq] <;>
    split_ifs <;> simp_all <;> omega

theorem cmpSB_gt_iff (a b : SourceBound) :
    cmpSB a b = .gt ↔
      b.value < a.value ∨
        b.value = a.value ∧
          (kindRank b.bound_type < kindRank a.bound_type ∨
            kindRank b.bound_type = kindRank a.bound_type ∧ b.source < a.source) := by
  obtain ⟨va, sa, ka⟩ := a
  obtain ⟨vb, sb, kb⟩ := b
  simp only [cmpSB, sbEq]
  cases ka <;> cases kb <;>
    simp only [kindRank, beq_iff_eq, Bool.and_eq_true, decide_eq_true_eq] <;>
    split_ifs <;> simp_all <;> omega

theorem cmpSB_swap_gt (a b : SourceBound) : cmpSB a b = .gt ↔ cmpSB b a = .lt := by
  rw [cmpSB_gt_iff, cmpSB_lt_iff]

theorem leSB_iff (a b : SourceBound) :
    leSB a b ↔
      a.value < b.value ∨
        a.value = b.value ∧
          (kindRank a.bound_type < kindRank b.bound_type ∨
            kindRank a.bound_type = kindRank b.bound_type ∧ a.source ≤ b.source) := by
  constructor
  · intro h
    rcases hc : cmpSB a b with _ | _ | _
    · have := (cmpSB_lt_iff a b).mp hc
      omega
    · obtain ⟨h1, h2, h3⟩ := (cmpSB_eq_iff a b).mp hc
      exact Or.inr ⟨h1, Or.inr ⟨by rw [h2], le_of_eq (by rw [h3])⟩⟩
    · exact absurd hc h
  · intro h hgt
    have := (cmpSB_gt_iff a b).mp hgt
    omega

theorem leSB_refl (a : SourceBound) : leSB a a := by
  rw [leSB_iff]
  omega

instance : IsTotal SourceBound leSB :=
  ⟨fun a b => by
    rw [leSB_iff, leSB_iff]
    omega⟩

instance : IsTrans SourceBound leSB :=
  ⟨fun a b c hab hbc => by
    rw [leSB_iff] at hab hbc ⊢
    omega⟩

instance : IsAntisymm SourceBound leSB :=
  ⟨fun a b hab hba => by
    rw [leSB_iff] at hab hba
    obtain ⟨va, sa, ka⟩ := a
    obtain ⟨vb, sb, kb⟩ := b
    simp only at hab hba
    have hv : va = vb := by omega
    have hk : kindRank ka = kindRank kb := by omega
    have hs : sa = sb := by omega
    have hk2 : ka = kb := kindRank_inj hk
    simp [hv, hs, hk2]⟩

/-! ### Sorting facts -/

theorem sortBounds_perm (l : List SourceBound) : (sortBounds l).Perm l :=
  List.perm_insertionSort leSB l

theorem sortBounds_sorted (l : List SourceBound) : List.Sorted leSB (sortBounds l) :=
  List.sorted_insertionSort leSB l

/-- Uniqueness of sorting: any `leSB`-sorted permutation of `l` (in particular
the output of Rust's stable merge sort) is exactly `sortBounds l`.  This is
what justifies modelling `Vec::sort` by insertion sort. -/
theorem sortBounds_canonical (l m : List SourceBound) (hp : m.Perm l)
    (hs : List.Sorted leSB m) : m = sortBounds l :=
  List.eq_of_perm_of_sorted (hp.trans (sortBounds_perm l).symm) hs (sortBounds_sorted l)

theorem sortBounds_length (l : List SourceBound) : (sortBounds l).length = l.length :=
  (sortBounds_perm l).length_eq

/-! ### Counting helpers -/

theorem countLower_nil : countLower [] = 0 := rfl

theorem countUpper_nil : countUpper [] = 0 := rfl

theorem countLower_cons (b : SourceBound) (l : List SourceBound) :
    countLower (b :: l) = countLower l + if b.bound_type = BoundType.Lower then 1 else 0 := by
  simp [countLower, List.countP_cons, isLowerB]

theorem countUpper_cons (b : SourceBound) (l : List SourceBound) :
    countUpper (b :: l) = countUpper l + if b.bound_type = BoundType.Lower then 0 else 1 := by
  by_cases h : b.bound_type = BoundType.Lower <;>
    simp [countUpper, List.countP_cons, isLowerB, h]

theorem countLower_append (l₁ l₂ : List SourceBound) :
    countLower (l₁ ++ l₂) = countLower l₁ + countLower l₂ := by
  simp [countLower, List.countP_append]

theorem countUpper_append (l₁ l₂ : List SourceBound) :
    countUpper (l₁ ++ l₂) = countUpper l₁ + countUpper l₂ := by
  simp [countUpper, List.countP_append]

theorem netFrom_nil (c : Nat) : netFrom c [] = c := rfl

theorem netFrom_cons (c : Nat) (b : SourceBound) (l : List SourceBound) :
    netFrom c (b :: l) = netFrom (bump c b.bound_type) l := rfl

theorem netFrom_append (c : Nat) (l₁ l₂ : List SourceBound) :
    netFrom c (l₁ ++ l₂) = netFrom (netFrom c l₁) l₂ := by
  simp [netFrom, List.foldl_append]

/-- Generic split of a count over a decidable case distinction. -/
theorem countP_or_split {α : Type} (l : List α) (p q r : α → Bool)
    (h : ∀ x ∈ l, (p x = true ↔ q x = true ∨ r x = true) ∧ ¬(q x = true ∧ r x = true)) :
    l.countP p = l.countP q + l.countP r := by
  induction l with
  | nil => simp
  | cons a t ih =>
    obtain ⟨hiff, hnand⟩ := h a (by simp)
    have ht := ih fun x hx => h x (by simp [hx])
    by_cases hq : q a = true <;> by_cases hr : r a = true
    · exact absurd ⟨hq, hr⟩ hnand
    · have hp : p a = true := hiff.mpr (Or.inl hq)
      simp [List.countP_cons, hq, hr, hp, ht]
      omega
    · have hp : p a = true := hiff.mpr (Or.inr hr)
      simp [List.countP_cons, hq, hr, hp, ht]
      omega
    · have hp : ¬p a = true := fun hpa => (hiff.mp hpa).elim hq hr
      simp [List.countP_cons, ht, hp, hq, hr]

/-! ### Structure of well-formed inputs -/

theorem mem_canonicalBounds (srcs : List Source) (x : SourceBound) :
    x ∈ canonicalBounds srcs ↔
      (∃ s ∈ srcs, x = mkLower s) ∨ ∃ s ∈ srcs, x = mkUpper s := by
  simp [canonicalBounds, eq_comm]

theorem canonicalBounds_length (srcs : List Source) :
    (canonicalBounds srcs).length = 2 * srcs.length := by
  simp [canonicalBounds]
  omega

theorem mkLower_bound_type (s : Source) : (mkLower s).bound_type = BoundType.Lower := rfl

theorem mkUpper_bound_type (s : Source) : (mkUpper s).bound_type = BoundType.Upper := rfl

theorem canonicalBounds_nodup {srcs : List Source}
    (hid : (srcs.map Source.id).Nodup) : (canonicalBounds srcs).Nodup := by
  have hinj := List.inj_on_of_nodup_map hid
  have hns : srcs.Nodup := List.Nodup.of_map _ hid
  rw [canonicalBounds, List.nodup_append]
  refine ⟨List.Nodup.map_on ?_ hns, List.Nodup.map_on ?_ hns, ?_⟩
  · intro x hx y hy hxy
    exact hinj hx hy (congrArg SourceBound.source hxy)
  · intro x hx y hy hxy
    exact hinj hx hy (congrArg SourceBound.source hxy)
  · intro x hxl hxu
    obtain ⟨s, _, hs⟩ := List.mem_map.mp hxl
    obtain ⟨t, _, ht⟩ := List.mem_map.mp hxu
    have : BoundType.Lower = BoundType.Upper := by
      rw [← mkLower_bound_type s, ← mkUpper_bound_type t, hs, ht]
    exact absurd this (by simp)

/-- The per-source bound-count bijection: for a duplicate-free collection `P`
of canonical bounds, the number of `Upper` (resp. `Lower`) bounds in `P` is
the number of sources whose `Upper` (resp. `Lower`) bound lies in `P`. -/
theorem countP_mem_eq {srcs : List Source} (f : Source → SourceBound)
    (pb : SourceBound → Bool)
    (hns : srcs.Nodup)
    (hinj : ∀ x ∈ srcs, ∀ y ∈ srcs, f x = f y → x = y)
    (hchar : ∀ x ∈ canonicalBounds srcs, (pb x = true ↔ ∃ s ∈ srcs, x = f s))
    (P : List SourceBound) (hnd : P.Nodup)
    (hsub : ∀ x ∈ P, x ∈ canonicalBounds srcs) :
    P.countP pb = srcs.countP fun s => decide (f s ∈ P) := by
  classical
  have hA : P.countP pb = (P.filter pb).length := List.countP_eq_length_filter _ _
  have hC : srcs.countP (fun s => decide (f s ∈ P)) =
      ((srcs.filter fun s => decide (f s ∈ P)).map f).length := by
    rw [List.length_map, List.countP_eq_length_filter]
  have hndA : (P.filter pb).Nodup := hnd.filter _
  have hndC : ((srcs.filter fun s => decide (f s ∈ P)).map f).Nodup := by
    refine List.Nodup.map_on ?_ (hns.filter _)
    intro x hx y hy hxy
    exact hinj x (List.mem_filter.mp hx).1 y (List.mem_filter.mp hy).1 hxy
  have hmem : ∀ x, x ∈ P.filter pb ↔
      x ∈ (srcs.filter fun s => decide (f s ∈ P)).map f := by
    intro x
    constructor
    · intro hx
      obtain ⟨hxP, hpb⟩ := List.mem_filter.mp hx
      obtain ⟨s, hsm, hsx⟩ := (hchar x (hsub x hxP)).mp hpb
      refine List.mem_map.mpr ⟨s, List.mem_filter.mpr ⟨hsm, ?_⟩, hsx.symm⟩
      simpa [← hsx] using hxP
    · intro hx
      obtain ⟨s, hsm, hsx⟩ := List.mem_map.mp hx
      obtain ⟨hsm2, hsP⟩ := List.mem_filter.mp hsm
      have hxP : x ∈ P := by
        rw [← hsx]
        simpa using hsP
      refine List.mem_filter.mpr ⟨hxP, ?_⟩
      exact (hchar x (hsub x hxP)).mpr ⟨s, hsm2, hsx.symm⟩
  have hfin : (P.filter pb).toFinset = ((srcs.filter fun s => decide (f s ∈ P)).map f).toFinset := by
    apply Finset.ext
    intro x
    simp only [List.mem_toFinset]
    exact hmem x
  rw [hA, hC, ← List.toFinset_card_of_nodup hndA, ← List.toFinset_card_of_nodup hndC, hfin]

theorem wf_sort_perm_canonical {srcs : List Source} {l : List SourceBound}
    (hwf : WellFormedInput srcs l) :
    (sortBounds l).Perm (canonicalBounds srcs) :=
  (sortBounds_perm l).trans hwf.2.2

theorem wf_sort_nodup {srcs : List Source} {l : List SourceBound}
    (hwf : WellFormedInput srcs l) : (sortBounds l).Nodup :=
  (wf_sort_perm_canonical hwf).nodup_iff.mpr (canonicalBounds_nodup hwf.1)

theorem wf_sort_mem {srcs : List Source} {l : List SourceBound}
    (hwf : WellFormedInput srcs l) (x : SourceBound) :
    x ∈ sortBounds l ↔ x ∈ canonicalBounds srcs :=
  (wf_sort_perm_canonical hwf).mem_iff

theorem wf_sort_length {srcs : List Source} {l : List SourceBound}
    (hwf : WellFormedInput srcs l) : (sortBounds l).length = 2 * srcs.length :=
  (wf_sort_perm_canonical hwf).length_eq.trans (canonicalBounds_length srcs)

theorem mkUpper_gt_mkLower {s : Source} (h : s.lo ≤ s.hi) :
    cmpSB (mkUpper s) (mkLower s) = .gt := by
  rw [cmpSB_gt_iff]
  simp only [mkLower, mkUpper, kindRank]
  omega

/-- In the sorted bound sequence, each source's `Lower` bound appears before
its `Upper` bound: any prefix containing the `Upper` also contains the
`Lower`. -/
theorem wf_lower_mem_of_upper_mem {srcs : List Source} {l : List SourceBound}
    {Q R : List SourceBound} (hwf : WellFormedInput srcs l)
    (hsplit : sortBounds l = Q ++ R) {s : Source} (hs : s ∈ srcs)
    (hU : mkUpper s ∈ Q) : mkLower s ∈ Q := by
  have hLmem : mkLower s ∈ sortBounds l :=
    (wf_sort_mem hwf _).mpr ((mem_canonicalBounds srcs _).mpr (Or.inl ⟨s, hs, rfl⟩))
  rw [hsplit] at hLmem
  rcases List.mem_append.mp hLmem with h | h
  · exact h
  · exfalso
    have hsorted := sortBounds_sorted l
    rw [hsplit] at hsorted
    have hrel : leSB (mkUpper s) (mkLower s) :=
      (List.pairwise_append.mp hsorted).2.2 _ hU _ h
    exact hrel (mkUpper_gt_mkLower (hwf.2.1 s hs).1)

theorem wf_countUpper_eq {srcs : List Source} {l : List SourceBound}
    (hwf : WellFormedInput srcs l) (P : List SourceBound) (hnd : P.Nodup)
    (hsub : ∀ x ∈ P, x ∈ canonicalBounds srcs) :
    countUpper P = srcs.countP fun s => decide (mkUpper s ∈ P) := by
  refine countP_mem_eq mkUpper _ (List.Nodup.of_map _ hwf.1) ?_ ?_ P hnd hsub
  · intro x hx y hy hxy
    exact List.inj_on_of_nodup_map hwf.1 hx hy (congrArg SourceBound.source hxy)
  · intro x hxc
    rcases (mem_canonicalBounds srcs x).mp hxc with ⟨s, hsm, hxe⟩ | ⟨s, hsm, hxe⟩
    · subst hxe
      simp only [isLowerB, mkLower_bound_type]
      constructor
      · intro h
        simp at h
      · rintro ⟨t, _, ht⟩
        have : BoundType.Lower = BoundType.Upper := by
          rw [← mkLower_bound_type s, ← mkUpper_bound_type t, ht]
        exact absurd this (by simp)
    · subst hxe
      refine ⟨fun _ => ⟨s, hsm, rfl⟩, fun _ => ?_⟩
      simp [isLowerB, mkUpper_bound_type]

theorem wf_countLower_eq {srcs : List Source} {l : List SourceBound}
    (hwf : WellFormedInput srcs l) (P : List SourceBound) (hnd : P.Nodup)
    (hsub : ∀ x ∈ P, x ∈ canonicalBounds srcs) :
    countLower P = srcs.countP fun s => decide (mkLower s ∈ P) := by
  refine countP_mem_eq mkLower _ (List.Nodup.of_map _ hwf.1) ?_ ?_ P hnd hsub
  · intro x hx y hy hxy
    exact List.inj_on_of_nodup_map hwf.1 hx hy (congrArg SourceBound.source hxy)
  · intro x hxc
    rcases (mem_canonicalBounds srcs x).mp hxc with ⟨s, hsm, hxe⟩ | ⟨s, hsm, hxe⟩
    · subst hxe
      refine ⟨fun _ => ⟨s, hsm, rfl⟩, fun _ => ?_⟩
      simp [isLowerB, mkLower_bound_type]
    · subst hxe
      simp only [isLowerB, mkUpper_bound_type]
      constructor
      · intro h
        simp at h
      · rintro ⟨t, _, ht⟩
        have : BoundType.Lower = BoundType.Upper := by
          rw [← mkLower_bound_type t, ← mkUpper_bound_type s, ← ht]
        exact absurd this (by simp)

/-- Every prefix of the sorted sequence has at least as many `Lower` as
`Upper` bounds. -/
theorem wf_front_good {srcs : List Source} {l : List SourceBound}
    {Q R : List SourceBound} (hwf : WellFormedInput srcs l)
    (hsplit : sortBounds l = Q ++ R) : countUpper Q ≤ countLower Q := by
  have hndQ : Q.Nodup :=
    List.Nodup.sublist (hsplit ▸ List.sublist_append_left Q R) (wf_sort_nodup hwf)
  have hsubQ : ∀ x ∈ Q, x ∈ canonicalBounds srcs := by
    intro x hx
    exact (wf_sort_mem hwf x).mp (hsplit ▸ List.mem_append.mpr (Or.inl hx))
  rw [wf_countUpper_eq hwf Q hndQ hsubQ, wf_countLower_eq hwf Q hndQ hsubQ]
  refine List.countP_mono_left fun s hs h => ?_
  simp only [decide_eq_true_eq] at h ⊢
  exact wf_lower_mem_of_upper_mem hwf hsplit hs h

/-- Exact value of the running counter along a block, given the prefix
inequality: truncated subtraction never actually truncates. -/
theorem netFrom_exact (R : List SourceBound) (c : Nat)
    (hgood : ∀ Q1 R1, R = Q1 ++ R1 → countUpper Q1 ≤ c + countLower Q1) :
    netFrom c R + countUpper R = c + countLower R := by
  induction R generalizing c with
  | nil => simp [netFrom_nil, countLower_nil, countUpper_nil]
  | cons b R2 ih =>
    have hb := hgood [b] R2 rfl
    simp [countUpper_cons, countLower_cons, countUpper_nil, countLower_nil] at hb
    rw [netFrom_cons]
    cases hk : b.bound_type with
    | Lower =>
      have ih2 := ih (c + 1) fun Q1 R1 hsp => by
        have h2 := hgood (b :: Q1) R1 (by rw [hsp]; rfl)
        simp [countUpper_cons, countLower_cons, hk] at h2
        omega
      simp [bump, hk, countUpper_cons, countLower_cons]
      omega
    | Upper =>
      have hc : 1 ≤ c := by
        simp [hk] at hb
        omega
      have ih2 := ih (c - 1) fun Q1 R1 hsp => by
        have h2 := hgood (b :: Q1) R1 (by rw [hsp]; rfl)
        simp [countUpper_cons, countLower_cons, hk] at h2
        omega
      simp [bump, hk, countUpper_cons, countLower_cons]
      omega

/-- Under the prefix inequality, the `usize` decrement never underflows. -/
theorem underflowFree_of_good (R : List SourceBound) (c : Nat)
    (hgood : ∀ Q1 R1, R = Q1 ++ R1 → countUpper Q1 ≤ c + countLower Q1) :
    underflowFree c R = true := by
  induction R generalizing c with
  | nil => rfl
  | cons b R2 ih =>
    cases hk : b.bound_type with
    | Lower =>
      have ih2 := ih (c + 1) fun Q1 R1 hsp => by
        have h2 := hgood (b :: Q1) R1 (by rw [hsp]; rfl)
        simp [countUpper_cons, countLower_cons, hk] at h2
        omega
      simp [underflowFree, hk, ih2]
    | Upper =>
      have hb := hgood [b] R2 rfl
      simp [countUpper_cons, countLower_cons, countUpper_nil, countLower_nil, hk] at hb
      have hc : 1 ≤ c := by omega
      have ih2 := ih (c - 1) fun Q1 R1 hsp => by
        have h2 := hgood (b :: Q1) R1 (by rw [hsp]; rfl)
        simp [countUpper_cons, countLower_cons, hk] at h2
        omega
      simp [underflowFree, hk, ih2]
      omega

/-! ### Point prefixes of the sorted sequence -/

/-- In a sorted list, filtering by a downward-closed predicate yields a
prefix. -/
theorem filter_sorted_front (pred : SourceBound → Bool) (bs : List SourceBound)
    (hs : List.Sorted leSB bs)
    (hdc : ∀ x y : SourceBound, leSB x y → pred y = true → pred x = true) :
    ∃ R, bs = bs.filter pred ++ R := by
  induction bs with
  | nil => exact ⟨[], rfl⟩
  | cons b t ih =>
    rcases List.sorted_cons.mp hs with ⟨hb, ht⟩
    by_cases hpb : pred b = true
    · obtain ⟨R, hR⟩ := ih ht
      refine ⟨R, ?_⟩
      rw [List.filter_cons_of_pos hpb, List.cons_append]
      exact congrArg (b :: ·) hR
    · refine ⟨b :: t, ?_⟩
      rw [List.filter_cons_of_neg hpb]
      have hnil : t.filter pred = [] :=
        List.filter_eq_nil_iff.mpr fun x hx hpx => hpb (hdc b x (hb x hx) hpx)
      simp [hnil]

theorem predLow_dc (p : Int) :
    ∀ x y : SourceBound, leSB x y → predLow p y = true → predLow p x = true := by
  intro x y hxy hy
  rw [leSB_iff] at hxy
  simp only [predLow, decide_eq_true_eq] at hy ⊢
  rcases hy with h | ⟨h1, h2⟩
  · rcases hxy with h2 | ⟨h2, _⟩
    · exact Or.inl (by omega)
    · exact Or.inl (by omega)
  · have hky : kindRank y.bound_type = 0 := by rw [h2]; rfl
    rcases hxy with h3 | ⟨h3, h4 | ⟨h4, _⟩⟩
    · exact Or.inl (by omega)
    · exact absurd h4 (by omega)
    · exact Or.inr ⟨by omega, (kindRank_inj (by omega)).trans h2⟩

theorem wf_pointFront {srcs : List Source} {l : List SourceBound}
    (_ : WellFormedInput srcs l) (p : Int) :
    ∃ R, sortBounds l = (sortBounds l).filter (predLow p) ++ R :=
  filter_sorted_front _ _ (sortBounds_sorted l) (predLow_dc p)

theorem mkLower_value (s : Source) : (mkLower s).value = s.lo := rfl

theorem mkUpper_value (s : Source) : (mkUpper s).value = s.hi := rfl

theorem wf_mkLower_mem_filterLow {srcs : List Source} {l : List SourceBound}
    (hwf : WellFormedInput srcs l) {s : Source} (hs : s ∈ srcs) (p : Int) :
    mkLower s ∈ (sortBounds l).filter (predLow p) ↔ s.lo ≤ p := by
  have hmem : mkLower s ∈ sortBounds l :=
    (wf_sort_mem hwf _).mpr ((mem_canonicalBounds _ _).mpr (Or.inl ⟨s, hs, rfl⟩))
  rw [List.mem_filter]
  simp [hmem, predLow, mkLower_value, mkLower_bound_type]
  omega

theorem wf_mkUpper_mem_filterLow {srcs : List Source} {l : List SourceBound}
    (hwf : WellFormedInput srcs l) {s : Source} (hs : s ∈ srcs) (p : Int) :
    mkUpper s ∈ (sortBounds l).filter (predLow p) ↔ s.hi < p := by
  have hmem : mkUpper s ∈ sortBounds l :=
    (wf_sort_mem hwf _).mpr ((mem_canonicalBounds _ _).mpr (Or.inr ⟨s, hs, rfl⟩))
  rw [List.mem_filter]
  simp [hmem, predLow, mkUpper_value, mkUpper_bound_type]

theorem wf_front_nodup_sub {srcs : List Source} {l : List SourceBound}
    {Q R : List SourceBound} (hwf : WellFormedInput srcs l)
    (hsp : sortBounds l = Q ++ R) :
    Q.Nodup ∧ ∀ x ∈ Q, x ∈ canonicalBounds srcs := by
  refine ⟨List.Nodup.sublist (hsp ▸ List.sublist_append_left Q R) (wf_sort_nodup hwf), ?_⟩
  intro x hx
  exact (wf_sort_mem hwf x).mp (hsp ▸ List.mem_append.mpr (Or.inl hx))

/-- Exact counter value at the end of any prefix of the sorted sequence. -/
theorem wf_netFrom_front {srcs : List Source} {l : List SourceBound}
    {Q R : List SourceBound} (hwf : WellFormedInput srcs l)
    (hsp : sortBounds l = Q ++ R) :
    netFrom 0 Q + countUpper Q = countLower Q := by
  have h := netFrom_exact Q 0 fun Q1 R1 h1 => by
    have h2 := wf_front_good (Q := Q1) (R := R1 ++ R) hwf
      (by rw [hsp, h1, List.append_assoc])
    omega
  omega

/-- The counter value at the point prefix of `p` is the number of sources
whose interval contains `p`. -/
theorem wf_netFrom_pointFront {srcs : List Source} {l : List SourceBound}
    (hwf : WellFormedInput srcs l) (p : Int) :
    netFrom 0 ((sortBounds l).filter (predLow p)) = overlapAt srcs p := by
  obtain ⟨R, hsp⟩ := wf_pointFront hwf p
  have hexact := wf_netFrom_front hwf hsp
  obtain ⟨hndP, hsubP⟩ := wf_front_nodup_sub hwf hsp
  have hU := wf_countUpper_eq hwf _ hndP hsubP
  have hL := wf_countLower_eq hwf _ hndP hsubP
  have hUc : (srcs.countP fun s => decide (mkUpper s ∈ (sortBounds l).filter (predLow p))) =
      srcs.countP fun s => decide (s.hi < p) :=
    List.countP_congr fun s hs => by
      simp only [decide_eq_true_eq]
      exact wf_mkUpper_mem_filterLow hwf hs p
  have hLc : (srcs.countP fun s => decide (mkLower s ∈ (sortBounds l).filter (predLow p))) =
      srcs.countP fun s => decide (s.lo ≤ p) :=
    List.countP_congr fun s hs => by
      simp only [decide_eq_true_eq]
      exact wf_mkLower_mem_filterLow hwf hs p
  have hsplit := countP_or_split srcs (fun s => decide (s.lo ≤ p))
    (fun s => decide (s.lo ≤ p ∧ p ≤ s.hi)) (fun s => decide (s.hi < p))
    (fun s hs => by
      have := (hwf.2.1 s hs).1
      constructor
      · simp only [decide_eq_true_eq]
        omega
      · simp only [decide_eq_true_eq]
        omega)
  unfold overlapAt
  omega

/-- The counter value at the end of a prefix counts the sources that are
open there: `Lower` bound inside the prefix, `Upper` bound outside. -/
theorem wf_netFrom_open {srcs : List Source} {l : List SourceBound}
    {Q R : List SourceBound} (hwf : WellFormedInput srcs l)
    (hsp : sortBounds l = Q ++ R) :
    netFrom 0 Q = srcs.countP fun s => decide (mkLower s ∈ Q ∧ mkUpper s ∉ Q) := by
  have hexact := wf_netFrom_front hwf hsp
  obtain ⟨hndQ, hsubQ⟩ := wf_front_nodup_sub hwf hsp
  have hU := wf_countUpper_eq hwf _ hndQ hsubQ
  have hL := wf_countLower_eq hwf _ hndQ hsubQ
  have hsplit := countP_or_split srcs (fun s => decide (mkLower s ∈ Q))
    (fun s => decide (mkLower s ∈ Q ∧ mkUpper s ∈ Q))
    (fun s => decide (mkLower s ∈ Q ∧ mkUpper s ∉ Q))
    (fun s hs => by
      constructor
      · simp only [decide_eq_true_eq]
        tauto
      · simp only [decide_eq_true_eq]
        tauto)
  have hUc : (srcs.countP fun s => decide (mkUpper s ∈ Q)) =
      srcs.countP fun s => decide (mkLower s ∈ Q ∧ mkUpper s ∈ Q) :=
    List.countP_congr fun s hs => by
      simp only [decide_eq_true_eq]
      exact ⟨fun h => ⟨wf_lower_mem_of_upper_mem hwf hsp hs h, h⟩, fun h => h.2⟩
  omega

/-! ### Fold and maximum helpers -/

theorem le_foldr_max (L : List Nat) (x : Nat) (h : x ∈ L) : x ≤ L.foldr max 0 := by
  induction L with
  | nil => cases h
  | cons a t ih =>
    rcases List.mem_cons.mp h with h | h
    · subst h
      exact le_max_left _ _
    · exact le_trans (ih h) (le_max_right _ _)

theorem foldr_max_mem (L : List Nat) (h : 0 < L.foldr max 0) : L.foldr max 0 ∈ L := by
  induction L with
  | nil => simp at h
  | cons a t ih =>
    simp only [List.foldr_cons] at h ⊢
    by_cases hat : t.foldr max 0 ≤ a
    · rw [max_eq_left hat]
      exact List.mem_cons_self a t
    · have he : max a (t.foldr max 0) = t.foldr max 0 := max_eq_right (le_of_not_le hat)
      rw [he] at h ⊢
      exact List.mem_cons_of_mem _ (ih h)

theorem foldl_max_eq (b : Nat) (L : List Nat) : L.foldl max b = max b (L.foldr max 0) := by
  induction L generalizing b with
  | nil => simp
  | cons a t ih =>
    rw [List.foldl_cons, List.foldr_cons, ih (max b a), max_assoc]

/-- Split a list at the first element satisfying `P`. -/
theorem first_split {α : Type} (P : α → Prop) [DecidablePred P] (L : List α)
    (h : ∃ x ∈ L, P x) :
    ∃ L1 w L2, L = L1 ++ w :: L2 ∧ P w ∧ ∀ x ∈ L1, ¬P x := by
  induction L with
  | nil => simp at h
  | cons a t ih =>
    by_cases ha : P a
    · exact ⟨[], a, t, rfl, ha, by simp⟩
    · obtain ⟨x, hx, hPx⟩ := h
      rcases List.mem_cons.mp hx with h2 | h2
      · exact absurd (h2 ▸ hPx) ha
      · obtain ⟨L1, w, L2, he, hw, hn⟩ := ih ⟨x, h2, hPx⟩
        refine ⟨a :: L1, w, L2, by rw [he]; rfl, hw, ?_⟩
        intro y hy
        rcases List.mem_cons.mp hy with h3 | h3
        · exact h3 ▸ ha
        · exact hn y h3

/-! ### First and last bounds of a well-formed sorted sequence -/

theorem wf_head_lower {srcs : List Source} {l : List SourceBound}
    (hwf : WellFormedInput srcs l) (hne : srcs ≠ []) :
    ∃ b0 rest, sortBounds l = b0 :: rest ∧ b0.bound_type = BoundType.Lower := by
  have hlen : (sortBounds l).length = 2 * srcs.length := wf_sort_length hwf
  have hpos : 0 < (sortBounds l).length := by
    rw [hlen]
    have : srcs.length ≠ 0 := fun h => hne (List.length_eq_zero.mp h)
    omega
  obtain ⟨b0, rest, hsp⟩ : ∃ b0 rest, sortBounds l = b0 :: rest := by
    cases hc : sortBounds l with
    | nil => rw [hc] at hpos; simp at hpos
    | cons x t => exact ⟨x, t, rfl⟩
  refine ⟨b0, rest, hsp, ?_⟩
  have hb0 : b0 ∈ sortBounds l := by rw [hsp]; simp
  rcases (mem_canonicalBounds srcs b0).mp ((wf_sort_mem hwf b0).mp hb0) with
    ⟨s, _, he⟩ | ⟨s, hsm, he⟩
  · rw [he]
    rfl
  · exfalso
    have hLmem : mkLower s ∈ sortBounds l :=
      (wf_sort_mem hwf _).mpr ((mem_canonicalBounds _ _).mpr (Or.inl ⟨s, hsm, rfl⟩))
    rw [hsp] at hLmem
    rcases List.mem_cons.mp hLmem with h2 | h2
    · have : BoundType.Lower = BoundType.Upper := by
        rw [← mkLower_bound_type s, h2, he, mkUpper_bound_type]
      exact absurd this (by simp)
    · have hsorted := sortBounds_sorted l
      rw [hsp] at hsorted
      have hrel : leSB b0 (mkLower s) := (List.sorted_cons.mp hsorted).1 _ h2
      rw [he] at hrel
      exact hrel (mkUpper_gt_mkLower (hwf.2.1 s hsm).1)

theorem wf_last_upper {srcs : List Source} {l : List SourceBound}
    (hwf : WellFormedInput srcs l) (hne : srcs ≠ []) :
    ∃ Q bl, sortBounds l = Q ++ [bl] ∧ bl.bound_type = BoundType.Upper := by
  have hlen : (sortBounds l).length = 2 * srcs.length := wf_sort_length hwf
  have hpos : 0 < (sortBounds l).length := by
    rw [hlen]
    have : srcs.length ≠ 0 := fun h => hne (List.length_eq_zero.mp h)
    omega
  rcases List.eq_nil_or_concat (sortBounds l) with hc | ⟨Q, bl, hsp⟩
  · rw [hc] at hpos
    simp at hpos
  · rw [List.concat_eq_append] at hsp
    refine ⟨Q, bl, hsp, ?_⟩
    have hbl : bl ∈ sortBounds l := by rw [hsp]; simp
    rcases (mem_canonicalBounds srcs bl).mp ((wf_sort_mem hwf bl).mp hbl) with
      ⟨s, hsm, he⟩ | ⟨s, _, he⟩
    · exfalso
      have hUmem : mkUpper s ∈ sortBounds l :=
        (wf_sort_mem hwf _).mpr ((mem_canonicalBounds _ _).mpr (Or.inr ⟨s, hsm, rfl⟩))
      rw [hsp] at hUmem
      rcases List.mem_append.mp hUmem with h2 | h2
      · have hsorted := sortBounds_sorted l
        rw [hsp] at hsorted
        have hrel : leSB (mkUpper s) bl :=
          (List.pairwise_append.mp hsorted).2.2 _ h2 _ (by simp)
        rw [he] at hrel
        exact hrel (mkUpper_gt_mkLower (hwf.2.1 s hsm).1)
      · have : BoundType.Upper = BoundType.Lower := by
          rw [← mkUpper_bound_type s, List.mem_singleton.mp h2, he, mkLower_bound_type]
        exact absurd this (by simp)
    · rw [he]
      rfl

/-! ### The sweep loop as a fold over candidate windows -/

theorem sweepStep_some (b b2 : SourceBound) (best c : Nat) (ivl : Option Interval) :
    sweepStep b (some b2) ⟨best, c, ivl⟩ =
      ⟨(selStep (best, ivl) (bump c b.bound_type, b, b2)).1, bump c b.bound_type,
        (selStep (best, ivl) (bump c b.bound_type, b, b2)).2⟩ := by
  simp only [sweepStep, selStep]
  by_cases h1 : best < bump c b.bound_type
  · simp [h1]
  · by_cases h2 : bump c b.bound_type = best ∧ b2.bound_type = BoundType.Upper
    · cases ivl with
      | none => simp [h1, h2]
      | some iv =>
        by_cases h3 : sub64 b2.value b.value < sub64 iv.upper_bound iv.lower_bound
        · simp [h1, h2, h3]
        · simp [h1, h2, h3]
    · simp [h1, h2]

theorem sweepList_eq_selFold :
    ∀ (bs : List SourceBound) (best c : Nat) (ivl : Option Interval),
      sweepList ⟨best, c, ivl⟩ bs =
        ⟨(selFold (best, ivl) (windowsF c bs)).1, netFrom c bs,
          (selFold (best, ivl) (windowsF c bs)).2⟩ := by
  intro bs
  induction bs with
  | nil => intro best c ivl; rfl
  | cons b t ih =>
    intro best c ivl
    cases t with
    | nil => rfl
    | cons b2 t2 =>
      show sweepList (sweepStep b (some b2) ⟨best, c, ivl⟩) (b2 :: t2) = _
      rw [sweepStep_some, ih]
      simp only [windowsF, selFold, List.foldl_cons, netFrom_cons, Prod.mk.eta]

theorem sweepGo_sorted :
    ∀ (rest : List SourceBound) (prev : SourceBound) (s : SweepState),
      List.Sorted leSB (prev :: rest) →
      sweepGo prev s rest =
        .ok ((prev :: rest).getLast (List.cons_ne_nil _ _), sweepList s rest) := by
  intro rest
  induction rest with
  | nil => intro prev s _; rfl
  | cons b t ih =>
    intro prev s h
    rcases List.sorted_cons.mp h with ⟨hp, ht⟩
    have hnotgt : ¬cmpSB prev b = .gt := hp b (by simp)
    show (if cmpSB prev b = .gt then _ else sweepGo b (sweepStep b t.head? s) t) = _
    rw [if_neg hnotgt, ih b _ ht, List.getLast_cons (List.cons_ne_nil _ _)]
    rfl

/-- Characterization of the candidate windows: one for each adjacent pair of
the sorted sequence (except none after the final bound), carrying the counter
value after the first element of the pair. -/
theorem windowsF_mem_iff :
    ∀ (bs : List SourceBound) (c : Nat) (w : Nat × SourceBound × SourceBound),
      w ∈ windowsF c bs ↔
        ∃ l1 b b2 l2, bs = l1 ++ b :: b2 :: l2 ∧ w = (netFrom c (l1 ++ [b]), b, b2) := by
  intro bs
  induction bs with
  | nil =>
    intro c w
    simp only [windowsF, List.not_mem_nil, false_iff]
    rintro ⟨l1, b, b2, l2, he, -⟩
    have := congrArg List.length he
    simp at this
    omega
  | cons x t ih =>
    intro c w
    cases t with
    | nil =>
      simp only [windowsF, List.not_mem_nil, false_iff]
      rintro ⟨l1, b, b2, l2, he, -⟩
      have := congrArg List.length he
      simp at this
      omega
    | cons b2 t2 =>
      simp only [windowsF, List.mem_cons, ih (bump c x.bound_type) w]
      constructor
      · rintro (hw | ⟨l1, b, b2x, l2, he, hw⟩)
        · exact ⟨[], x, b2, t2, rfl, hw⟩
        · refine ⟨x :: l1, b, b2x, l2, by rw [List.cons_append, ← he], ?_⟩
          rw [hw, List.cons_append, netFrom_cons]
      · rintro ⟨l1, b, b2x, l2, he, hw⟩
        cases l1 with
        | nil =>
          simp only [List.nil_append] at he
          injection he with h1 h2
          injection h2 with h2a h2b
          subst h1
          subst h2a
          subst h2b
          exact Or.inl hw
        | cons y l1x =>
          simp only [List.cons_append] at he
          injection he with h1 h2
          subst h1
          refine Or.inr ⟨l1x, b, b2x, l2, h2, ?_⟩
          rw [hw, List.cons_append, netFrom_cons]

/-! ### Analysis of the selection fold -/

theorem leSB_value_le {a b : SourceBound} (h : leSB a b) : a.value ≤ b.value := by
  rw [leSB_iff] at h
  omega

theorem selStep_fst (st : Nat × Option Interval) (w : Nat × SourceBound × SourceBound) :
    (selStep st w).1 = max st.1 w.1 := by
  unfold selStep
  by_cases h1 : st.1 < w.1
  · simp only [if_pos h1]
    omega
  · by_cases h2 : w.1 = st.1 ∧ w.2.2.bound_type = BoundType.Upper
    · simp only [if_neg h1, if_pos h2]
      omega
    · simp only [if_neg h1, if_neg h2]
      omega

theorem selFold_fst (W : List (Nat × SourceBound × SourceBound)) :
    ∀ st : Nat × Option Interval,
      (selFold st W).1 = max st.1 ((W.map fun w => w.1).foldr max 0) := by
  induction W with
  | nil => intro st; simp [selFold]
  | cons w t ih =>
    intro st
    show (selFold (selStep st w) t).1 = _
    rw [ih (selStep st w), selStep_fst, List.map_cons, List.foldr_cons, max_assoc]

theorem foldr_max_lt (L : List Nat) (B : Nat) (hB : 0 < B)
    (h : ∀ x ∈ L, x < B) : L.foldr max 0 < B := by
  by_cases h0 : 0 < L.foldr max 0
  · exact h _ (foldr_max_mem L h0)
  · omega

/-- One step of the first-strict-minimum fold. -/
theorem minFirst_cons (w x : Int × Int) (t : List (Int × Int)) :
    minFirst w (x :: t) = minFirst (if pWidth x < pWidth w then x else w) t := rfl

/-- The first-strict-minimum fold: its result is a member, has minimal width,
and every candidate strictly before it is strictly wider. -/
theorem minFirst_spec (ws : List (Int × Int)) :
    ∀ w : Int × Int,
      ∃ pre post,
        w :: ws = pre ++ minFirst w ws :: post ∧
          (∀ x ∈ pre, pWidth (minFirst w ws) < pWidth x) ∧
          ∀ x ∈ w :: ws, pWidth (minFirst w ws) ≤ pWidth x := by
  induction ws with
  | nil =>
    intro w
    exact ⟨[], [], rfl, by simp, by simp [minFirst]⟩
  | cons x t ih =>
    intro w
    by_cases hx : pWidth x < pWidth w
    · rw [minFirst_cons, if_pos hx]
      obtain ⟨pre, post, he, hpre, hmin⟩ := ih x
      refine ⟨w :: pre, post, ?_, ?_, ?_⟩
      · rw [List.cons_append, ← he]
      · intro y hy
        rcases List.mem_cons.mp hy with h2 | h2
        · subst h2
          exact lt_of_le_of_lt (hmin x (by simp)) hx
        · exact hpre y h2
      · intro y hy
        rcases List.mem_cons.mp hy with h2 | h2
        · subst h2
          exact le_of_lt (lt_of_le_of_lt (hmin x (by simp)) hx)
        · exact hmin y h2
    · rw [minFirst_cons, if_neg hx]
      obtain ⟨pre, post, he, hpre, hmin⟩ := ih w
      rcases pre with _ | ⟨p0, pre2⟩
      · simp only [List.nil_append] at he
        injection he with h1 h2
        refine ⟨[], x :: t, ?_, by simp, ?_⟩
        · rw [List.nil_append, ← h1]
        · intro y hy
          rcases List.mem_cons.mp hy with h3 | h3
          · subst h3
            rw [← h1]
          · rcases List.mem_cons.mp h3 with h4 | h4
            · subst h4
              rw [← h1]
              exact le_of_not_lt hx
            · exact hmin y (by simp [h4])
      · simp only [List.cons_append] at he
        injection he with h1 h2
        have hMw : pWidth (minFirst w t) < pWidth w := by
          have h3 := hpre p0 (by simp)
          rw [← h1] at h3
          exact h3
        refine ⟨w :: x :: pre2, post, ?_, ?_, ?_⟩
        · rw [List.cons_append, List.cons_append, ← h2]
        · intro y hy
          rcases List.mem_cons.mp hy with h3 | h3
          · subst h3
            exact hMw
          · rcases List.mem_cons.mp h3 with h4 | h4
            · subst h4
              exact lt_of_lt_of_le hMw (le_of_not_lt hx)
            · exact hpre y (by simp [h4])
        · intro y hy
          rcases List.mem_cons.mp hy with h3 | h3
          · rw [h3]
            exact hmin w (by simp)
          · rcases List.mem_cons.mp h3 with h4 | h4
            · subst h4
              exact le_of_lt (lt_of_lt_of_le hMw (le_of_not_lt hx))
            · exact hmin y (by simp [h4])

/-- After the sweep has reached the maximal count `B` with a recorded
candidate, the rest of the pass keeps `best = B` and replaces the candidate
exactly as the first-strict-minimum fold over the remaining `B`-level
windows. -/
theorem selFold_min (W2 : List (Nat × SourceBound × SourceBound)) (B : Nat) :
    ∀ cur : Int × Int,
      (∀ w ∈ W2, w.1 ≤ B) →
      (∀ w ∈ W2, w.1 = B → w.2.2.bound_type = BoundType.Upper) →
      selFold (B, some ⟨cur.1, cur.2, 0, 0⟩) W2 =
        (B, some
          ⟨(minFirst cur ((W2.filter fun x => decide (x.1 = B)).map
              fun x => (x.2.1.value, x.2.2.value))).1,
            (minFirst cur ((W2.filter fun x => decide (x.1 = B)).map
              fun x => (x.2.1.value, x.2.2.value))).2, 0, 0⟩) := by
  induction W2 with
  | nil =>
    intro cur _ _
    simp [selFold, minFirst]
  | cons w t ih =>
    intro cur hle hup
    have hle2 : ∀ x ∈ t, x.1 ≤ B := fun x hx => hle x (by simp [hx])
    have hup2 : ∀ x ∈ t, x.1 = B → x.2.2.bound_type = BoundType.Upper :=
      fun x hx => hup x (by simp [hx])
    show selFold (selStep (B, some ⟨cur.1, cur.2, 0, 0⟩) w) t = _
    by_cases hB : w.1 = B
    · have hU := hup w (by simp) hB
      have hstep : selStep (B, some ⟨cur.1, cur.2, 0, 0⟩) w =
          (B, some (if sub64 w.2.2.value w.2.1.value < sub64 cur.2 cur.1 then
            (⟨w.2.1.value, w.2.2.value, 0, 0⟩ : Interval) else ⟨cur.1, cur.2, 0, 0⟩)) := by
        unfold selStep
        rw [if_neg (by omega : ¬(B, some (⟨cur.1, cur.2, 0, 0⟩ : Interval)).1 < w.1),
          if_pos (⟨hB, hU⟩ :
            w.1 = (B, some (⟨cur.1, cur.2, 0, 0⟩ : Interval)).1 ∧
              w.2.2.bound_type = BoundType.Upper)]
        by_cases h3 : sub64 w.2.2.value w.2.1.value < sub64 cur.2 cur.1 <;> simp [h3]
      rw [hstep]
      have hfil : (w :: t).filter (fun x => decide (x.1 = B)) =
          w :: t.filter fun x => decide (x.1 = B) :=
        List.filter_cons_of_pos (by simp [hB])
      rw [hfil, List.map_cons, minFirst_cons]
      simp only [pWidth]
      by_cases h3 : sub64 w.2.2.value w.2.1.value < sub64 cur.2 cur.1
      · simp only [if_pos h3]
        exact ih (w.2.1.value, w.2.2.value) hle2 hup2
      · simp only [if_neg h3]
        exact ih cur hle2 hup2
    · have hstep : selStep (B, some ⟨cur.1, cur.2, 0, 0⟩) w =
          (B, some ⟨cur.1, cur.2, 0, 0⟩) := by
        unfold selStep
        rw [if_neg (by have := hle w (by simp); omega :
            ¬(B, some (⟨cur.1, cur.2, 0, 0⟩ : Interval)).1 < w.1),
          if_neg (by simp [hB])]
      rw [hstep, List.filter_cons_of_neg (by simp [hB])]
      exact ih cur hle2 hup2

/-! ### Window facts for well-formed inputs -/

theorem countLower_canonical (srcs : List Source) :
    countLower (canonicalBounds srcs) = srcs.length := by
  unfold canonicalBounds countLower
  rw [List.countP_append, List.countP_map, List.countP_map]
  have h1 : srcs.countP (isLowerB ∘ mkLower) = srcs.length := by
    have : (isLowerB ∘ mkLower) = fun _ => true := by
      funext s
      simp [isLowerB, Function.comp, mkLower_bound_type]
    rw [this, List.countP_true]
  have h2 : srcs.countP (isLowerB ∘ mkUpper) = 0 := by
    have : (isLowerB ∘ mkUpper) = fun _ => false := by
      funext s
      simp [isLowerB, Function.comp, mkUpper_bound_type]
    rw [this]
    induction srcs <;> simp_all [List.countP_cons]
  omega

theorem countUpper_canonical (srcs : List Source) :
    countUpper (canonicalBounds srcs) = srcs.length := by
  unfold canonicalBounds countUpper
  rw [List.countP_append, List.countP_map, List.countP_map]
  have h1 : srcs.countP ((fun b => !isLowerB b) ∘ mkUpper) = srcs.length := by
    have : ((fun b => !isLowerB b) ∘ mkUpper) = fun _ => true := by
      funext s
      simp [isLowerB, Function.comp, mkUpper_bound_type]
    rw [this, List.countP_true]
  have h2 : srcs.countP ((fun b => !isLowerB b) ∘ mkLower) = 0 := by
    have : ((fun b => !isLowerB b) ∘ mkLower) = fun _ => false := by
      funext s
      simp [isLowerB, Function.comp, mkLower_bound_type]
    rw [this]
    induction srcs <;> simp_all [List.countP_cons]
  omega

theorem wf_netFrom_all {srcs : List Source} {l : List SourceBound}
    (hwf : WellFormedInput srcs l) : netFrom 0 (sortBounds l) = 0 := by
  have h := wf_netFrom_front (Q := sortBounds l) (R := []) hwf (by simp)
  have hL : countLower (sortBounds l) = srcs.length :=
    ((wf_sort_perm_canonical hwf).countP_eq _).trans (countLower_canonical srcs)
  have hU : countUpper (sortBounds l) = srcs.length :=
    ((wf_sort_perm_canonical hwf).countP_eq _).trans (countUpper_canonical srcs)
  omega

/-- Every candidate window `(k, b, b2)` of a well-formed input satisfies
`b.value <= b2.value`, is contained in the interval of each of the `k`
currently-open sources, and those agreeing sources all contain `b.value`. -/
theorem wf_window_facts {srcs : List Source} {l : List SourceBound}
    (hwf : WellFormedInput srcs l) {w : Nat × SourceBound × SourceBound}
    (hw : w ∈ windowsF 0 (sortBounds l)) :
    w.2.1.value ≤ w.2.2.value ∧
      w.1 ≤ agreeCount srcs w.2.1.value w.2.2.value ∧
      agreeCount srcs w.2.1.value w.2.2.value ≤ overlapAt srcs w.2.1.value := by
  obtain ⟨l1, b, b2, l2, hsp, hwe⟩ := (windowsF_mem_iff _ 0 w).mp hw
  have hQR : sortBounds l = (l1 ++ [b]) ++ b2 :: l2 := by
    rw [hsp]
    simp
  have hsorted := sortBounds_sorted l
  rw [hQR] at hsorted
  obtain ⟨hQ, hR, hcross⟩ := List.pairwise_append.mp hsorted
  have hbb2 : leSB b b2 := hcross b (by simp) b2 (by simp)
  have hval : b.value ≤ b2.value := leSB_value_le hbb2
  have hopen := wf_netFrom_open hwf hQR
  have hcov : (srcs.countP fun s =>
      decide (mkLower s ∈ l1 ++ [b] ∧ mkUpper s ∉ l1 ++ [b])) ≤
      agreeCount srcs b.value b2.value := by
    refine List.countP_mono_left fun s hs h => ?_
    simp only [decide_eq_true_eq] at h ⊢
    obtain ⟨hLin, hUout⟩ := h
    constructor
    · rcases List.mem_append.mp hLin with h2 | h2
      · have hrel : leSB (mkLower s) b :=
          (List.pairwise_append.mp hQ).2.2 _ h2 _ (by simp)
        exact leSB_value_le hrel
      · exact le_of_eq (congrArg SourceBound.value (List.mem_singleton.mp h2))
    · have hUbs : mkUpper s ∈ sortBounds l :=
        (wf_sort_mem hwf _).mpr ((mem_canonicalBounds _ _).mpr (Or.inr ⟨s, hs, rfl⟩))
      rw [hQR] at hUbs
      rcases List.mem_append.mp hUbs with h2 | h2
      · exact absurd h2 hUout
      · rcases List.mem_cons.mp h2 with h3 | h3
        · exact le_of_eq (congrArg SourceBound.value h3).symm
        · have hrel : leSB b2 (mkUpper s) := (List.sorted_cons.mp hR).1 _ h3
          exact leSB_value_le hrel
  have hagree : agreeCount srcs b.value b2.value ≤ overlapAt srcs b.value := by
    refine List.countP_mono_left fun s hs h => ?_
    simp only [decide_eq_true_eq] at h ⊢
    omega
  rw [hwe]
  dsimp only
  exact ⟨hval, by rw [hopen]; exact hcov, hagree⟩

/-- Every point's overlap count is at most the maximal window counter. -/
theorem wf_overlap_le_winMax {srcs : List Source} {l : List SourceBound}
    (hwf : WellFormedInput srcs l) (p : Int) : overlapAt srcs p ≤ winMax l := by
  obtain ⟨R, hsp⟩ := wf_pointFront hwf p
  rw [← wf_netFrom_pointFront hwf p]
  rcases List.eq_nil_or_concat ((sortBounds l).filter (predLow p)) with hc | ⟨l1, bP, hc⟩
  · rw [hc]
    exact Nat.zero_le _
  · cases R with
    | nil =>
      have hPall : (sortBounds l).filter (predLow p) = sortBounds l := by
        rw [hsp]
        simp
      rw [hPall, wf_netFrom_all hwf]
      exact Nat.zero_le _
    | cons bR R2 =>
      rw [List.concat_eq_append] at hc
      have hw : (netFrom 0 (l1 ++ [bP]), bP, bR) ∈ windowsF 0 (sortBounds l) := by
        rw [windowsF_mem_iff]
        exact ⟨l1, bP, bR, R2, by rw [hsp, hc]; simp, rfl⟩
      have hle := le_foldr_max ((windowsF 0 (sortBounds l)).map fun x => x.1)
        (netFrom 0 (l1 ++ [bP]))
        (List.mem_map.mpr ⟨(netFrom 0 (l1 ++ [bP]), bP, bR), hw, rfl⟩)
      rw [hc]
      exact hle

theorem wf_winMax_pos {srcs : List Source} {l : List SourceBound}
    (hwf : WellFormedInput srcs l) (hne : srcs ≠ []) : 1 ≤ winMax l := by
  obtain ⟨b0, rest, hsp, hb0⟩ := wf_head_lower hwf hne
  have hlen := wf_sort_length hwf
  have hNpos : 1 ≤ srcs.length := List.length_pos.mpr hne
  cases rest with
  | nil =>
    rw [hsp] at hlen
    simp at hlen
    omega
  | cons b1 t =>
    have hw : (bump 0 b0.bound_type, b0, b1) ∈ windowsF 0 (sortBounds l) := by
      rw [hsp]
      simp [windowsF]
    have hle := le_foldr_max ((windowsF 0 (sortBounds l)).map fun x => x.1)
      (bump 0 b0.bound_type)
      (List.mem_map.mpr ⟨(bump 0 b0.bound_type, b0, b1), hw, rfl⟩)
    simpa [bump, hb0] using hle

theorem winMax_def (l : List SourceBound) :
    winMax l = ((windowsF 0 (sortBounds l)).map fun w => w.1).foldr max 0 := rfl

theorem wf_winMax_le {srcs : List Source} {l : List SourceBound}
    (hwf : WellFormedInput srcs l) (hne : srcs ≠ []) : winMax l ≤ srcs.length := by
  have hpos := wf_winMax_pos hwf hne
  rw [winMax_def] at hpos ⊢
  have hmem := foldr_max_mem ((windowsF 0 (sortBounds l)).map fun w => w.1) (by omega)
  obtain ⟨w, hw, hwfst⟩ := List.mem_map.mp hmem
  obtain ⟨l1, b, b2, l2, hsp, hwe⟩ := (windowsF_mem_iff _ 0 w).mp hw
  have hQR : sortBounds l = (l1 ++ [b]) ++ b2 :: l2 := by
    rw [hsp]
    simp
  have hopen := wf_netFrom_open hwf hQR
  rw [← hwfst, hwe]
  dsimp only
  rw [hopen]
  exact List.countP_le_length _

theorem wf_winMax_attained {srcs : List Source} {l : List SourceBound}
    (hwf : WellFormedInput srcs l) (hne : srcs ≠ []) :
    ∃ p : Int, overlapAt srcs p = winMax l := by
  have hpos := wf_winMax_pos hwf hne
  rw [winMax_def] at hpos
  have hmem := foldr_max_mem ((windowsF 0 (sortBounds l)).map fun w => w.1) (by omega)
  obtain ⟨w, hw, hwfst⟩ := List.mem_map.mp hmem
  obtain ⟨-, h2, h3⟩ := wf_window_facts hwf hw
  refine ⟨w.2.1.value, le_antisymm (wf_overlap_le_winMax hwf _) ?_⟩
  rw [winMax_def, ← hwfst]
  exact le_trans h2 h3

/-- At the maximal counter level every window is closed by an `Upper` bound:
this is why the tie branch of the sweep sees every `best`-level window. -/
theorem wf_level_upper {srcs : List Source} {l : List SourceBound}
    (hwf : WellFormedInput srcs l) (hne : srcs ≠ [])
    {w : Nat × SourceBound × SourceBound} (hw : w ∈ windowsF 0 (sortBounds l))
    (hfst : w.1 = winMax l) : w.2.2.bound_type = BoundType.Upper := by
  by_contra hU
  have hLow : w.2.2.bound_type = BoundType.Lower := by
    cases h : w.2.2.bound_type
    · rfl
    · exact absurd h hU
  obtain ⟨l1, b, b2, l2, hsp, hwe⟩ := (windowsF_mem_iff _ 0 w).mp hw
  have hb2 : b2.bound_type = BoundType.Lower := by
    rw [hwe] at hLow
    exact hLow
  cases l2 with
  | nil =>
    obtain ⟨Q, bl, hsp2, hbl⟩ := wf_last_upper hwf hne
    have h1 : (sortBounds l).getLast? = some b2 := by
      rw [hsp, show l1 ++ b :: b2 :: ([] : List SourceBound) = (l1 ++ [b]) ++ [b2] by simp,
        List.getLast?_concat]
    have h2 : (sortBounds l).getLast? = some bl := by
      rw [hsp2, List.getLast?_concat]
    rw [h1] at h2
    injection h2 with h3
    exact absurd (hbl.symm.trans (h3 ▸ hb2)) (by simp)
  | cons b3 l2x =>
    have hw2 : (netFrom 0 ((l1 ++ [b]) ++ [b2]), b2, b3) ∈ windowsF 0 (sortBounds l) := by
      rw [windowsF_mem_iff]
      exact ⟨l1 ++ [b], b2, b3, l2x, by rw [hsp]; simp, rfl⟩
    have hle := le_foldr_max ((windowsF 0 (sortBounds l)).map fun x => x.1)
      (netFrom 0 ((l1 ++ [b]) ++ [b2]))
      (List.mem_map.mpr ⟨(netFrom 0 ((l1 ++ [b]) ++ [b2]), b2, b3), hw2, rfl⟩)
    have hval : netFrom 0 ((l1 ++ [b]) ++ [b2]) = w.1 + 1 := by
      rw [netFrom_append, hwe]
      dsimp only
      simp [netFrom, bump, hb2]
    rw [← winMax_def] at hle
    rw [hval, hfst] at hle
    omega

/-! ### Main characterization of `try_from_source_bounds` on well-formed
inputs -/

/-- On a non-empty well-formed input the function returns `Ok`; the returned
pair of endpoints is the first-strict-minimum of the maximal-overlap windows
`levelWindows l`, and the two counters are the `u8` casts of `best` and
`sources - best`. -/
theorem wf_main {srcs : List Source} {l : List SourceBound}
    (hwf : WellFormedInput srcs l) (hne : srcs ≠ []) :
    ∃ w0 ws,
      levelWindows l = w0 :: ws ∧
        try_from_source_bounds l =
          .ok ⟨(minFirst w0 ws).1, (minFirst w0 ws).2, winMax l % 256,
            (srcs.length - winMax l) % 256⟩ := by
  have hlen : l.length = 2 * srcs.length :=
    hwf.2.2.length_eq.trans (canonicalBounds_length srcs)
  have hNpos : 1 ≤ srcs.length := List.length_pos.mpr hne
  have hN : l.length / 2 = srcs.length := by omega
  have hN0 : ¬l.length / 2 = 0 := by omega
  obtain ⟨b0, rest, hsp, hb0⟩ := wf_head_lower hwf hne
  obtain ⟨Q, bl, hsp2, hbl⟩ := wf_last_upper hwf hne
  have hBpos := wf_winMax_pos hwf hne
  have hBle := wf_winMax_le hwf hne
  -- split the window list at the first window reaching the maximal count
  have hBmem : ∃ w ∈ windowsF 0 (sortBounds l), w.1 = winMax l := by
    have hmem := foldr_max_mem ((windowsF 0 (sortBounds l)).map fun w => w.1)
      (by rw [← winMax_def]; omega)
    obtain ⟨w, hw, hwfst⟩ := List.mem_map.mp hmem
    exact ⟨w, hw, by rw [winMax_def, hwfst]⟩
  obtain ⟨W1, wstar, W2, hWsplit, hwstar, hW1⟩ :=
    first_split (fun w => w.1 = winMax l) (windowsF 0 (sortBounds l)) hBmem
  have hW1lt : ∀ x ∈ W1, x.1 < winMax l := by
    intro x hx
    have hle := le_foldr_max ((windowsF 0 (sortBounds l)).map fun w => w.1) x.1
      (List.mem_map.mpr ⟨x, by rw [hWsplit]; simp [hx], rfl⟩)
    rw [← winMax_def] at hle
    exact lt_of_le_of_ne hle (hW1 x hx)
  -- run the selection fold
  have hst1 : (selFold (0, none) W1).1 < winMax l := by
    rw [selFold_fst]
    rcases Nat.eq_zero_or_pos ((W1.map fun w => w.1).foldr max 0) with h0 | h0
    · rw [h0]
      simpa using hBpos
    · have hmem := foldr_max_mem (W1.map fun w => w.1) h0
      obtain ⟨x, hx, hxe⟩ := List.mem_map.mp hmem
      have := hW1lt x hx
      rw [Nat.zero_max, ← hxe]
      omega
  have hle2 : ∀ w ∈ W2, w.1 ≤ winMax l := by
    intro x hx
    have hle := le_foldr_max ((windowsF 0 (sortBounds l)).map fun w => w.1) x.1
      (List.mem_map.mpr ⟨x, by rw [hWsplit]; simp [hx], rfl⟩)
    rw [← winMax_def] at hle
    exact hle
  have hup2 : ∀ w ∈ W2, w.1 = winMax l → w.2.2.bound_type = BoundType.Upper := by
    intro x hx hxB
    exact wf_level_upper hwf hne (by rw [hWsplit]; simp [hx]) hxB
  have hselstar : selStep (selFold (0, none) W1) wstar =
      (winMax l, some ⟨wstar.2.1.value, wstar.2.2.value, 0, 0⟩) := by
    unfold selStep
    rw [if_pos (by rw [hwstar]; exact hst1), hwstar]
  have hfold : selFold (0, none) (windowsF 0 (sortBounds l)) =
      (winMax l, some
        ⟨(minFirst (wstar.2.1.value, wstar.2.2.value)
            ((W2.filter fun x => decide (x.1 = winMax l)).map
              fun x => (x.2.1.value, x.2.2.value))).1,
          (minFirst (wstar.2.1.value, wstar.2.2.value)
            ((W2.filter fun x => decide (x.1 = winMax l)).map
              fun x => (x.2.1.value, x.2.2.value))).2, 0, 0⟩) := by
    rw [hWsplit]
    unfold selFold
    rw [List.foldl_append, List.foldl_cons]
    show selFold (selStep (selFold (0, none) W1) wstar) W2 = _
    rw [hselstar]
    exact selFold_min W2 (winMax l) (wstar.2.1.value, wstar.2.2.value) hle2 hup2
  -- identify the level windows
  have hlev : levelWindows l =
      (wstar.2.1.value, wstar.2.2.value) ::
        (W2.filter fun x => decide (x.1 = winMax l)).map
          fun x => (x.2.1.value, x.2.2.value) := by
    unfold levelWindows
    rw [hWsplit, List.filter_append, List.filter_cons_of_pos (by simp [hwstar])]
    have hW1nil : W1.filter (fun x => decide (x.1 = winMax l)) = [] :=
      List.filter_eq_nil_iff.mpr fun x hx => by
        have := hW1 x hx
        simp [this]
    rw [hW1nil]
    simp
  -- now compute the function
  refine ⟨(wstar.2.1.value, wstar.2.2.value),
    (W2.filter fun x => decide (x.1 = winMax l)).map fun x => (x.2.1.value, x.2.2.value),
    hlev, ?_⟩
  have hsorted := sortBounds_sorted l
  rw [hsp] at hsorted
  have hrun := sweepGo_sorted rest b0 (sweepStep b0 rest.head? ⟨0, 0, none⟩) hsorted
  have hglast : (b0 :: rest).getLast (List.cons_ne_nil _ _) = bl := by
    have h2 : (b0 :: rest).getLast? = some bl := by
      rw [← hsp, hsp2, List.getLast?_concat]
    rw [List.getLast?_eq_getLast _ (List.cons_ne_nil _ _)] at h2
    exact Option.some.inj h2
  have hswl : sweepList (sweepStep b0 rest.head? ⟨0, 0, none⟩) rest =
      ⟨winMax l, netFrom 0 (sortBounds l), some
        ⟨(minFirst (wstar.2.1.value, wstar.2.2.value)
            ((W2.filter fun x => decide (x.1 = winMax l)).map
              fun x => (x.2.1.value, x.2.2.value))).1,
          (minFirst (wstar.2.1.value, wstar.2.2.value)
            ((W2.filter fun x => decide (x.1 = winMax l)).map
              fun x => (x.2.1.value, x.2.2.value))).2, 0, 0⟩⟩ := by
    have h0 : sweepList (sweepStep b0 rest.head? ⟨0, 0, none⟩) rest =
        sweepList ⟨0, 0, none⟩ (b0 :: rest) := rfl
    rw [h0, ← hsp, sweepList_eq_selFold, hfold]
  unfold try_from_source_bounds
  rw [if_neg hN0, hsp]
  dsimp only
  rw [if_neg (by simp [hb0]), hrun, hglast, hswl]
  dsimp only
  rw [if_neg (by simp [hbl]), if_neg (by rw [hN]; omega)]
  rw [if_pos (by rw [hN]; omega)]
  rw [hN]

/-! ### Permutation invariance and level-window properties -/

/-- The function only looks at the input through its length and its sorted
copy, and both are permutation-invariant. -/
theorem try_from_perm (l1 l2 : List SourceBound) (hp : l1.Perm l2) :
    try_from_source_bounds l1 = try_from_source_bounds l2 := by
  have hsort : sortBounds l1 = sortBounds l2 :=
    sortBounds_canonical l2 (sortBounds l1) ((sortBounds_perm l1).trans hp)
      (sortBounds_sorted l1)
  have hlen := hp.length_eq
  unfold try_from_source_bounds
  rw [hsort, hlen]

/-- Every maximal-overlap window has endpoints that are input values, is
correctly ordered, and is contained in the interval of exactly `winMax l`
sources. -/
theorem wf_levelWindows_mem {srcs : List Source} {l : List SourceBound}
    (hwf : WellFormedInput srcs l) {q : Int × Int} (hq : q ∈ levelWindows l) :
    (∃ b ∈ l, b.value = q.1) ∧ (∃ b ∈ l, b.value = q.2) ∧ q.1 ≤ q.2 ∧
      agreeCount srcs q.1 q.2 = winMax l := by
  unfold levelWindows at hq
  obtain ⟨x, hx, hxe⟩ := List.mem_map.mp hq
  obtain ⟨hxw, hxB⟩ := List.mem_filter.mp hx
  have hxB2 : x.1 = winMax l := by simpa using hxB
  obtain ⟨hord, hge, hle⟩ := wf_window_facts hwf hxw
  obtain ⟨l1, b, b2, l2, hsp, hwe⟩ := (windowsF_mem_iff _ 0 x).mp hxw
  have hbmem : b ∈ l := by
    rw [← (sortBounds_perm l).mem_iff, hsp]
    simp
  have hb2mem : b2 ∈ l := by
    rw [← (sortBounds_perm l).mem_iff, hsp]
    simp
  have hq1 : q.1 = b.value := by
    rw [← hxe, hwe]
  have hq2 : q.2 = b2.value := by
    rw [← hxe, hwe]
  have hxv1 : x.2.1.value = b.value := by rw [hwe]
  have hxv2 : x.2.2.value = b2.value := by rw [hwe]
  refine ⟨⟨b, hbmem, hq1.symm⟩, ⟨b2, hb2mem, hq2.symm⟩, ?_, ?_⟩
  · rw [hq1, hq2, ← hxv1, ← hxv2]
    exact hord
  · rw [hq1, hq2, ← hxv1, ← hxv2]
    refine le_antisymm (le_trans hle (wf_overlap_le_winMax hwf _)) ?_
    rw [← hxB2]
    exact hge

/-- `wrap64` is the identity inside the `i64` range. -/
theorem wrap64_eq {x : Int} (h1 : -(2 ^ 63) ≤ x) (h2 : x < 2 ^ 63) :
    wrap64 x = x := by
  unfold wrap64
  have hp : (2 : Int) ^ 63 = 9223372036854775808 := by norm_num
  have hq : (2 : Int) ^ 64 = 18446744073709551616 := by norm_num
  rw [hp, hq] at *
  rw [Int.emod_eq_of_lt (by omega) (by omega)]
  omega

theorem sub64_eq {a b : Int} (ha : -(2 ^ 61) ≤ a ∧ a ≤ 2 ^ 61)
    (hb : -(2 ^ 61) ≤ b ∧ b ≤ 2 ^ 61) : sub64 a b = a - b := by
  unfold sub64
  have h61 : (2 : Int) ^ 61 = 2305843009213693952 := by norm_num
  have h63 : (2 : Int) ^ 63 = 9223372036854775808 := by norm_num
  refine wrap64_eq (by omega) (by omega)

theorem pWidth_eq {q : Int × Int} (h1 : -(2 ^ 61) ≤ q.1 ∧ q.1 ≤ 2 ^ 61)
    (h2 : -(2 ^ 61) ≤ q.2 ∧ q.2 ≤ 2 ^ 61) : pWidth q = q.2 - q.1 :=
  sub64_eq h2 h1

/-- Size bound on a clique: a duplicate-free sub-collection of sources whose
intervals all contain a common point has at most `overlapAt` many members. -/
theorem clique_le_overlap {srcs S : List Source} (hS : S.Sublist srcs)
    (p : Int) (hcov : ∀ s ∈ S, s.lo ≤ p ∧ p ≤ s.hi) :
    S.length ≤ overlapAt srcs p := by
  have h1 : S.countP (fun s => decide (s.lo ≤ p ∧ p ≤ s.hi)) = S.length := by
    rw [show S.length = S.countP fun _ => true by rw [List.countP_true]]
    exact List.countP_congr fun s hs => by simp [hcov s hs]
  rw [← h1]
  exact List.Sublist.countP_le _ hS

/-- From a point of maximal overlap that is some source's lower bound, the
sweep derives a maximal-overlap window starting exactly there and ending no
later than any upper bound that is at least `M`. -/
theorem wf_clique_window {srcs : List Source} {l : List SourceBound}
    (hwf : WellFormedInput srcs l) {M y : Int}
    (hov : overlapAt srcs M = winMax l) (hpos : 1 ≤ winMax l)
    (hsM : ∃ s ∈ srcs, s.lo = M) (hsy : ∃ s ∈ srcs, s.hi = y) (hMy : M ≤ y) :
    ∃ q ∈ levelWindows l, q.1 = M ∧ q.2 ≤ y := by
  obtain ⟨R, hsp⟩ := wf_pointFront hwf M
  have hnet : netFrom 0 ((sortBounds l).filter (predLow M)) = winMax l :=
    (wf_netFrom_pointFront hwf M).trans hov
  rcases List.eq_nil_or_concat ((sortBounds l).filter (predLow M)) with hc | ⟨l1, bP, hc⟩
  · rw [hc] at hnet
    rw [netFrom_nil] at hnet
    omega
  cases R with
  | nil =>
    exfalso
    have hPall : (sortBounds l).filter (predLow M) = sortBounds l := by
      rw [hsp]
      simp
    rw [hPall, wf_netFrom_all hwf] at hnet
    omega
  | cons bR R2 =>
    rw [List.concat_eq_append] at hc
    have hspl : sortBounds l = l1 ++ bP :: bR :: R2 := by
      rw [hsp, hc]
      simp
    have hw : (netFrom 0 (l1 ++ [bP]), bP, bR) ∈ windowsF 0 (sortBounds l) := by
      rw [windowsF_mem_iff]
      exact ⟨l1, bP, bR, R2, hspl, rfl⟩
    have hfst : netFrom 0 (l1 ++ [bP]) = winMax l := by
      rw [hc] at hnet
      exact hnet
    have hsorted := sortBounds_sorted l
    rw [hsp] at hsorted
    obtain ⟨hP, hR, hcross⟩ := List.pairwise_append.mp hsorted
    -- the window starts exactly at M
    have hPle : bP.value ≤ M := by
      have hbP : bP ∈ (sortBounds l).filter (predLow M) := by
        rw [hc]
        simp
      have := (List.mem_filter.mp hbP).2
      simp only [predLow, decide_eq_true_eq] at this
      omega
    obtain ⟨sM, hsMm, hsMlo⟩ := hsM
    have hLsM : mkLower sM ∈ (sortBounds l).filter (predLow M) := by
      rw [List.mem_filter]
      refine ⟨(wf_sort_mem hwf _).mpr ((mem_canonicalBounds _ _).mpr
        (Or.inl ⟨sM, hsMm, rfl⟩)), ?_⟩
      simp [predLow, mkLower_value, mkLower_bound_type, hsMlo]
    have hPge : M ≤ bP.value := by
      rw [hc] at hLsM
      rw [hc] at hP
      rcases List.mem_append.mp hLsM with h2 | h2
      · have hrel : leSB (mkLower sM) bP :=
          (List.pairwise_append.mp hP).2.2 _ h2 _ (by simp)
        have := leSB_value_le hrel
        rw [mkLower_value, hsMlo] at this
        exact this
      · have := congrArg SourceBound.value (List.mem_singleton.mp h2)
        rw [mkLower_value, hsMlo] at this
        omega
    -- the window ends at or before y
    obtain ⟨sy, hsym, hsyhi⟩ := hsy
    have hUy : mkUpper sy ∈ bR :: R2 := by
      have hmem : mkUpper sy ∈ sortBounds l :=
        (wf_sort_mem hwf _).mpr ((mem_canonicalBounds _ _).mpr (Or.inr ⟨sy, hsym, rfl⟩))
      rw [hsp] at hmem
      rcases List.mem_append.mp hmem with h2 | h2
      · exfalso
        have := (List.mem_filter.mp h2).2
        simp only [predLow, decide_eq_true_eq, mkUpper_value, mkUpper_bound_type] at this
        rcases this with h3 | ⟨-, h3⟩
        · omega
        · exact absurd h3 (by simp)
      · exact h2
    have hRy : bR.value ≤ y := by
      rcases List.mem_cons.mp hUy with h2 | h2
      · rw [← h2, mkUpper_value, hsyhi]
      · have hrel : leSB bR (mkUpper sy) := (List.sorted_cons.mp hR).1 _ h2
        have := leSB_value_le hrel
        rw [mkUpper_value, hsyhi] at this
        exact this
    refine ⟨(bP.value, bR.value), ?_, by omega, hRy⟩
    unfold levelWindows
    refine List.mem_map.mpr ⟨(netFrom 0 (l1 ++ [bP]), bP, bR), ?_, rfl⟩
    rw [List.mem_filter]
    exact ⟨hw, by simp [hfst]⟩

/-! ### The 256-source input -/

theorem srcs256_length : srcs256.length = 256 := by
  simp [srcs256]

theorem srcs256_ne : srcs256 ≠ [] := by
  intro h
  have := congrArg List.length h
  rw [srcs256_length] at this
  simp at this

theorem l256_wf : WellFormedInput srcs256 l256 := by
  refine ⟨?_, ?_, List.Perm.refl _⟩
  · have h : srcs256.map Source.id = List.range 256 := by
      unfold srcs256
      rw [List.map_map]
      have h2 : (Source.id ∘ fun i => (⟨i, 0, 0⟩ : Source)) = id := funext fun i => rfl
      rw [h2, List.map_id]
    rw [h]
    exact List.nodup_range 256
  · intro s hs
    obtain ⟨i, hi, he⟩ := List.mem_map.mp hs
    subst he
    have hi2 : i < 256 := List.mem_range.mp hi
    exact ⟨le_refl 0, hi2, by norm_num [i64Min], by norm_num [i64Max]⟩

theorem overlapAt_srcs256 : overlapAt srcs256 0 = 256 := by
  unfold overlapAt
  have h1 : (srcs256.countP fun s => decide (s.lo ≤ 0 ∧ 0 ≤ s.hi)) =
      srcs256.countP fun _ => true := by
    refine List.countP_congr fun s hs => ?_
    obtain ⟨i, _, he⟩ := List.mem_map.mp hs
    subst he
    simp
  rw [h1, List.countP_true, srcs256_length]

theorem l256_result : ∃ lo hi, try_from_source_bounds l256 = .ok ⟨lo, hi, 0, 0⟩ := by
  obtain ⟨w0, ws, hlev, heq⟩ := wf_main l256_wf srcs256_ne
  have hB1 : winMax l256 ≤ 256 := srcs256_length ▸ wf_winMax_le l256_wf srcs256_ne
  have hB2 : 256 ≤ winMax l256 :=
    overlapAt_srcs256 ▸ wf_overlap_le_winMax l256_wf 0
  have hB : winMax l256 = 256 := le_antisymm hB1 hB2
  refine ⟨(minFirst w0 ws).1, (minFirst w0 ws).2, ?_⟩
  rw [heq, hB, srcs256_length]

/-! ### Claim theorems -/

/-- C7: for the empty input, `Interval::try_from_source_bounds` returns `Ok`
immediately with the degenerate interval `[0, 0]` and both source counters
zero. -/
theorem c7_empty_input : try_from_source_bounds [] = .ok ⟨0, 0, 0, 0⟩ := rfl

/-- C10: the source count is `len / 2` (integer division), so an input with
fewer than two bounds — in particular a single unpaired bound — yields the
degenerate `Ok([0,0], 0, 0)` result rather than an error. -/
theorem c10_short_input (l : List SourceBound) (h : l.length < 2) :
    try_from_source_bounds l = .ok ⟨0, 0, 0, 0⟩ := by
  unfold try_from_source_bounds
  rw [if_pos (by omega)]

theorem c10_witness :
    ([(⟨5, 0, BoundType.Lower⟩ : SourceBound)].length < 2) ∧
      try_from_source_bounds [⟨5, 0, BoundType.Lower⟩] = .ok ⟨0, 0, 0, 0⟩ :=
  ⟨by decide, c10_short_input [⟨5, 0, BoundType.Lower⟩] (by decide)⟩

/-- C8: for the three-source input `[7,9], [7,12], [10,11]` (sources 0, 1, 2)
the function returns the interval `[10, 11]` with `sources_true = 2` and
`sources_false = 1`. -/
theorem c8_three_sources : try_from_source_bounds lC8 = .ok ⟨10, 11, 2, 1⟩ := by
  decide

/-- C5: the result is invariant under permutation of the input bounds, and
calling the selector twice on the same input yields the same result (the
function is pure). -/
theorem c5_permutation_invariant (l1 l2 : List SourceBound) (hp : l1.Perm l2) :
    try_from_source_bounds l1 = try_from_source_bounds l2 ∧
      try_from_source_bounds l1 = try_from_source_bounds l1 :=
  ⟨try_from_perm l1 l2 hp, rfl⟩

theorem c5_witness :
    (lC8.reverse.Perm lC8) ∧
      try_from_source_bounds lC8.reverse = try_from_source_bounds lC8 :=
  ⟨List.reverse_perm lC8,
    (c5_permutation_invariant lC8.reverse lC8 (List.reverse_perm lC8)).1⟩

/-- C9: for well-formed input, every prefix of the sorted bound sequence
contains at least as many `Lower` as `Upper` bounds, so the running counter
is strictly positive at every `Upper` bound and the unsigned
`count -= 1` never underflows (`underflowFree`). -/
theorem c9_no_underflow {srcs : List Source} {l : List SourceBound}
    (hwf : WellFormedInput srcs l) :
    (∀ Q R, sortBounds l = Q ++ R → countUpper Q ≤ countLower Q) ∧
      underflowFree 0 (sortBounds l) = true :=
  ⟨fun _ _ h => wf_front_good hwf h,
    underflowFree_of_good _ 0 fun Q1 R1 h => by
      have := wf_front_good hwf h
      omega⟩

theorem c9_witness :
    WellFormedInput srcsC8 lC8 ∧ underflowFree 0 (sortBounds lC8) = true :=
  ⟨by decide, (@c9_no_underflow srcsC8 lC8 (by decide)).2⟩

/-- C3: for every well-formed input (exactly one `Lower` and one `Upper`
bound per distinct source, `lower.value <= upper.value`) the function
returns `Ok`: none of the three error kinds is produced. -/
theorem c3_wellformed_ok {srcs : List Source} {l : List SourceBound}
    (hwf : WellFormedInput srcs l) :
    ∃ ivl, try_from_source_bounds l = .ok ivl := by
  by_cases hne : srcs = []
  · subst hne
    have hl : l = [] := hwf.2.2.eq_nil
    subst hl
    exact ⟨⟨0, 0, 0, 0⟩, rfl⟩
  · obtain ⟨w0, ws, -, heq⟩ := wf_main hwf hne
    exact ⟨_, heq⟩

theorem c3_witness : ∃ ivl, try_from_source_bounds lC8 = .ok ivl :=
  @c3_wellformed_ok srcsC8 lC8 (by decide)

/-- C1 (amended): for well-formed input the function succeeds and
`sources_true` is the `u8` cast (mod 256) of the maximum number of source
intervals containing a common point; in particular `sources_true` equals
that maximum whenever there are at most 255 sources.  (The unamended claim
fails at 256 sources, where the cast wraps to 0 — see the
counterexample.) -/
theorem c1_sources_true_eq_max_overlap {srcs : List Source} {l : List SourceBound}
    (hwf : WellFormedInput srcs l) :
    ∃ ivl B, try_from_source_bounds l = .ok ivl ∧
      (∃ p : Int, overlapAt srcs p = B) ∧ (∀ p : Int, overlapAt srcs p ≤ B) ∧
      ivl.sources_true = B % 256 ∧ (srcs.length ≤ 255 → ivl.sources_true = B) := by
  by_cases hne : srcs = []
  · subst hne
    have hl : l = [] := hwf.2.2.eq_nil
    subst hl
    exact ⟨⟨0, 0, 0, 0⟩, 0, rfl, ⟨0, rfl⟩, fun p => le_of_eq rfl, rfl, fun _ => rfl⟩
  · obtain ⟨w0, ws, -, heq⟩ := wf_main hwf hne
    refine ⟨_, winMax l, heq, wf_winMax_attained hwf hne, wf_overlap_le_winMax hwf,
      rfl, ?_⟩
    intro hle
    have hB := wf_winMax_le hwf hne
    show winMax l % 256 = winMax l
    exact Nat.mod_eq_of_lt (by omega)

theorem c1_witness :
    WellFormedInput srcsC8 lC8 ∧
      ∃ ivl B, try_from_source_bounds lC8 = .ok ivl ∧
        (∃ p : Int, overlapAt srcsC8 p = B) ∧ (∀ p : Int, overlapAt srcsC8 p ≤ B) ∧
        ivl.sources_true = B % 256 ∧ (srcsC8.length ≤ 255 → ivl.sources_true = B) :=
  ⟨by decide, @c1_sources_true_eq_max_overlap srcsC8 lC8 (by decide)⟩

/-- C1 counterexample: the claim as stated fails on the well-formed input of
256 sources (the whole `u8` id range) all claiming `[0, 0]`: the maximum
overlap count is 256, but the returned `sources_true` is its `u8` cast 0. -/
theorem c1_counterexample :
    WellFormedInput srcs256 l256 ∧ overlapAt srcs256 0 = 256 ∧
      sourcesTrueOf l256 = some 0 := by
  refine ⟨l256_wf, overlapAt_srcs256, ?_⟩
  obtain ⟨lo, hi, heq⟩ := l256_result
  unfold sourcesTrueOf
  rw [heq]

/-- C6 (amended): for well-formed input of `N` sources the function succeeds
with `sources_true + sources_false ≡ N (mod 256)` — with equality whenever
`N ≤ 255` — and `sources_true ≤ N` and `lower_bound <= upper_bound`
unconditionally.  (The unamended `sources_true + sources_false = N` fails at
`N = 256` by `u8` wrap-around — see the counterexample.) -/
theorem c6_result_invariants {srcs : List Source} {l : List SourceBound}
    (hwf : WellFormedInput srcs l) :
    ∃ ivl, try_from_source_bounds l = .ok ivl ∧
      (ivl.sources_true + ivl.sources_false) % 256 = srcs.length % 256 ∧
      (srcs.length ≤ 255 → ivl.sources_true + ivl.sources_false = srcs.length) ∧
      ivl.sources_true ≤ srcs.length ∧ ivl.lower_bound ≤ ivl.upper_bound := by
  by_cases hne : srcs = []
  · subst hne
    have hl : l = [] := hwf.2.2.eq_nil
    subst hl
    exact ⟨⟨0, 0, 0, 0⟩, rfl, rfl, fun _ => rfl, le_refl 0, le_refl 0⟩
  · obtain ⟨w0, ws, hlev, heq⟩ := wf_main hwf hne
    have hB := wf_winMax_le hwf hne
    obtain ⟨pre, post, hdec, -, -⟩ := minFirst_spec ws w0
    have hmem : minFirst w0 ws ∈ levelWindows l := by
      rw [hlev, hdec]
      simp
    obtain ⟨-, -, hord, -⟩ := wf_levelWindows_mem hwf hmem
    refine ⟨_, heq, ?_, ?_, ?_, hord⟩
    · show (winMax l % 256 + (srcs.length - winMax l) % 256) % 256 = srcs.length % 256
      omega
    · intro h
      show winMax l % 256 + (srcs.length - winMax l) % 256 = srcs.length
      omega
    · show winMax l % 256 ≤ srcs.length
      have := Nat.mod_le (winMax l) 256
      omega

theorem c6_witness :
    WellFormedInput srcsC8 lC8 ∧
      ∃ ivl, try_from_source_bounds lC8 = .ok ivl ∧
        (ivl.sources_true + ivl.sources_false) % 256 = srcsC8.length % 256 ∧
        (srcsC8.length ≤ 255 → ivl.sources_true + ivl.sources_false = srcsC8.length) ∧
        ivl.sources_true ≤ srcsC8.length ∧ ivl.lower_bound ≤ ivl.upper_bound :=
  ⟨by decide, @c6_result_invariants srcsC8 lC8 (by decide)⟩

/-- C6 counterexample: on the 256-source well-formed input both `u8`
counters wrap to 0, so `sources_true + sources_false = 0 ≠ 256 = N`. -/
theorem c6_counterexample :
    WellFormedInput srcs256 l256 ∧ srcs256.length = 256 ∧
      sourcesSumOf l256 = some 0 := by
  refine ⟨l256_wf, srcs256_length, ?_⟩
  obtain ⟨lo, hi, heq⟩ := l256_result
  unfold sourcesSumOf
  rw [heq]
  rfl

/-- C4 (amended): `Ord::cmp` on `SourceBound` is a strict total order:
`value` ascending, then `Lower` before `Upper`, then `source` ascending; it
returns `Equal` iff `value`, `kind` AND `source` all coincide, while the
`PartialEq` relation (`sbEq`) ignores `source` and holds iff `value` and
`kind` coincide.  (The unamended claim — `cmp` equal iff same value and
kind — fails when only the sources differ; see the counterexample.) -/
theorem c4_comparator_order : ∀ a b c : SourceBound,
    (sbEq a b = true ↔ a.value = b.value ∧ a.bound_type = b.bound_type) ∧
      (cmpSB a b = .eq ↔
        a.value = b.value ∧ a.bound_type = b.bound_type ∧ a.source = b.source) ∧
      (a.value < b.value → cmpSB a b = .lt) ∧
      (a.value = b.value → a.bound_type = BoundType.Lower →
        b.bound_type = BoundType.Upper → cmpSB a b = .lt) ∧
      (a.value = b.value → a.bound_type = b.bound_type → a.source < b.source →
        cmpSB a b = .lt) ∧
      (cmpSB a b = .lt → cmpSB b c = .lt → cmpSB a c = .lt) ∧
      (cmpSB a b = .lt ∨ cmpSB a b = .eq ∨ cmpSB b a = .lt) ∧
      (cmpSB a b = .gt ↔ cmpSB b a = .lt) := by
  intro a b c
  refine ⟨sbEq_iff a b, cmpSB_eq_iff a b, ?_, ?_, ?_, ?_, ?_, cmpSB_swap_gt a b⟩
  · intro h
    exact (cmpSB_lt_iff a b).mpr (Or.inl h)
  · intro h1 h2 h3
    refine (cmpSB_lt_iff a b).mpr (Or.inr ⟨h1, Or.inl ?_⟩)
    rw [h2, h3]
    decide
  · intro h1 h2 h3
    exact (cmpSB_lt_iff a b).mpr (Or.inr ⟨h1, Or.inr ⟨by rw [h2], h3⟩⟩)
  · intro h1 h2
    rw [cmpSB_lt_iff] at h1 h2 ⊢
    omega
  · rcases hc : cmpSB a b with _ | _ | _
    · exact Or.inl rfl
    · exact Or.inr (Or.inl rfl)
    · exact Or.inr (Or.inr ((cmpSB_swap_gt a b).mp hc))

theorem c4_witness :
    cmpSB ⟨0, 0, BoundType.Lower⟩ ⟨1, 0, BoundType.Lower⟩ = .lt ∧
      cmpSB ⟨2, 1, BoundType.Lower⟩ ⟨2, 1, BoundType.Upper⟩ = .lt ∧
      cmpSB ⟨2, 1, BoundType.Upper⟩ ⟨2, 1, BoundType.Lower⟩ = .gt :=
  ⟨(c4_comparator_order ⟨0, 0, BoundType.Lower⟩ ⟨1, 0, BoundType.Lower⟩
      ⟨0, 0, BoundType.Lower⟩).2.2.1 (by decide),
    (c4_comparator_order ⟨2, 1, BoundType.Lower⟩ ⟨2, 1, BoundType.Upper⟩
      ⟨2, 1, BoundType.Lower⟩).2.2.2.1 rfl rfl rfl,
    (c4_comparator_order ⟨2, 1, BoundType.Upper⟩ ⟨2, 1, BoundType.Lower⟩
      ⟨2, 1, BoundType.Upper⟩).2.2.2.2.2.2.2.mpr
      ((c4_comparator_order ⟨2, 1, BoundType.Lower⟩ ⟨2, 1, BoundType.Upper⟩
        ⟨2, 1, BoundType.Lower⟩).2.2.2.1 rfl rfl rfl)⟩

/-- C4 counterexample: two bounds with the same value and kind but different
sources do NOT compare as `Equal` under `Ord::cmp` (the source breaks the
tie), contradicting the claim that the order relation equates bounds iff
value and kind agree. -/
theorem c4_counterexample :
    (⟨0, 0, BoundType.Lower⟩ : SourceBound).value =
        (⟨0, 1, BoundType.Lower⟩ : SourceBound).value ∧
      (⟨0, 0, BoundType.Lower⟩ : SourceBound).bound_type =
        (⟨0, 1, BoundType.Lower⟩ : SourceBound).bound_type ∧
      ¬cmpSB ⟨0, 0, BoundType.Lower⟩ ⟨0, 1, BoundType.Lower⟩ = .eq := by
  decide

/-- C2 (amended): for a non-empty well-formed input (with values small
enough that the `i64` width subtraction cannot overflow), the returned
interval is one of the maximal-overlap candidate windows `levelWindows l`
(each of which is contained in exactly the maximal number `winMax l` of
source intervals); it has minimal width among them; it is the first window
of that minimal width in the left-to-right pass; and its width is at most
the width `min hi - max lo` of the intersection of any maximal agreeing
source set.  (The unamended claim — smallest among ALL intervals achieving
the maximal containment count — is false: any single point inside the
winner also achieves it; see the counterexample.) -/
theorem c2_smallest_first_window {srcs : List Source} {l : List SourceBound}
    (hwf : WellFormedInput srcs l) (hne : srcs ≠ [])
    (hsmall : ∀ b ∈ l, -(2 ^ 61) ≤ b.value ∧ b.value ≤ 2 ^ 61) :
    ∃ ivl, try_from_source_bounds l = .ok ivl ∧
      (ivl.lower_bound, ivl.upper_bound) ∈ levelWindows l ∧
      (∀ q ∈ levelWindows l, agreeCount srcs q.1 q.2 = winMax l) ∧
      (∀ q ∈ levelWindows l, ivl.upper_bound - ivl.lower_bound ≤ q.2 - q.1) ∧
      (∃ pre post,
        levelWindows l = pre ++ (ivl.lower_bound, ivl.upper_bound) :: post ∧
          ∀ q ∈ pre, ivl.upper_bound - ivl.lower_bound < q.2 - q.1) ∧
      ∀ S : List Source, S.Sublist srcs → S.length = winMax l →
        ∀ sM ∈ S, ∀ sm ∈ S,
          (∀ s ∈ S, s.lo ≤ sM.lo) → (∀ s ∈ S, sm.hi ≤ s.hi) → sM.lo ≤ sm.hi →
            ivl.upper_bound - ivl.lower_bound ≤ sm.hi - sM.lo := by
  obtain ⟨w0, ws, hlev, heq⟩ := wf_main hwf hne
  obtain ⟨pre, post, hdec, hpre, hmin⟩ := minFirst_spec ws w0
  have hqmem : minFirst w0 ws ∈ levelWindows l := by
    rw [hlev, hdec]
    simp
  have hbnd : ∀ q ∈ levelWindows l,
      (-(2 ^ 61) ≤ q.1 ∧ q.1 ≤ 2 ^ 61) ∧ (-(2 ^ 61) ≤ q.2 ∧ q.2 ≤ 2 ^ 61) := by
    intro q hq
    obtain ⟨⟨b1, hb1, he1⟩, ⟨b2, hb2, he2⟩, -, -⟩ := wf_levelWindows_mem hwf hq
    rw [← he1, ← he2]
    exact ⟨hsmall b1 hb1, hsmall b2 hb2⟩
  have hwid : ∀ q ∈ levelWindows l, pWidth q = q.2 - q.1 := fun q hq =>
    pWidth_eq (hbnd q hq).1 (hbnd q hq).2
  refine ⟨_, heq, hqmem, ?_, ?_, ?_, ?_⟩
  · intro q hq
    exact (wf_levelWindows_mem hwf hq).2.2.2
  · intro q hq
    have h1 := hmin q (by rw [hlev] at hq; exact hq)
    rw [hwid q hq, hwid _ hqmem] at h1
    exact h1
  · refine ⟨pre, post, by rw [hlev, hdec], ?_⟩
    intro q hqpre
    have hqlev : q ∈ levelWindows l := by
      rw [hlev, hdec]
      exact List.mem_append.mpr (Or.inl hqpre)
    have h1 := hpre q hqpre
    rw [hwid q hqlev, hwid _ hqmem] at h1
    exact h1
  · intro S hsub hlen sM hsM sm hsm hmaxlo hminhi hnonempty
    have hov1 : S.length ≤ overlapAt srcs sM.lo :=
      clique_le_overlap hsub sM.lo fun s hs =>
        ⟨hmaxlo s hs, le_trans hnonempty (hminhi s hs)⟩
    have hov : overlapAt srcs sM.lo = winMax l :=
      le_antisymm (wf_overlap_le_winMax hwf _) (hlen ▸ hov1)
    obtain ⟨q, hqlev, hq1, hq2⟩ := wf_clique_window hwf hov
      (wf_winMax_pos hwf hne) ⟨sM, hsub.subset hsM, rfl⟩ ⟨sm, hsub.subset hsm, rfl⟩
      hnonempty
    have h1 := hmin q (by rw [hlev] at hqlev; exact hqlev)
    rw [hwid q hqlev, hwid _ hqmem] at h1
    show (minFirst w0 ws).2 - (minFirst w0 ws).1 ≤ sm.hi - sM.lo
    omega

theorem c2_witness :
    (WellFormedInput srcsC8 lC8 ∧ srcsC8 ≠ [] ∧
        ∀ b ∈ lC8, -(2 ^ 61) ≤ b.value ∧ b.value ≤ 2 ^ 61) ∧
      ∃ ivl, try_from_source_bounds lC8 = .ok ivl ∧
        (ivl.lower_bound, ivl.upper_bound) ∈ levelWindows lC8 ∧
        (∀ q ∈ levelWindows lC8, agreeCount srcsC8 q.1 q.2 = winMax lC8) ∧
        (∀ q ∈ levelWindows lC8, ivl.upper_bound - ivl.lower_bound ≤ q.2 - q.1) ∧
        (∃ pre post,
          levelWindows lC8 = pre ++ (ivl.lower_bound, ivl.upper_bound) :: post ∧
            ∀ q ∈ pre, ivl.upper_bound - ivl.lower_bound < q.2 - q.1) ∧
        ∀ S : List Source, S.Sublist srcsC8 → S.length = winMax lC8 →
          ∀ sM ∈ S, ∀ sm ∈ S,
            (∀ s ∈ S, s.lo ≤ sM.lo) → (∀ s ∈ S, sm.hi ≤ s.hi) → sM.lo ≤ sm.hi →
              ivl.upper_bound - ivl.lower_bound ≤ sm.hi - sM.lo :=
  ⟨⟨by decide, by decide, by decide⟩,
    @c2_smallest_first_window srcsC8 lC8 (by decide) (by decide) (by decide)⟩

/-- C2 counterexample: with the single source `[1, 3]` the function returns
`[1, 3]` (width 2), yet the degenerate interval `[2, 2]` (width 0) is also
contained in the maximal number (1) of source intervals — so the returned
interval is NOT the smallest-width interval among those achieving the
maximum overlap count, as literally claimed. -/
theorem c2_counterexample :
    WellFormedInput srcsSingle lSingle ∧
      try_from_source_bounds lSingle = .ok ⟨1, 3, 1, 0⟩ ∧
      winMax lSingle = 1 ∧ agreeCount srcsSingle 2 2 = 1 ∧
      (2 : Int) - 2 < 3 - 1 := by
  decide

end Marzullo
